import Mathlib

/-
Verification development for the video-subtitle-generator repository.

Modelled code:
  * src/translation/translation.py
      - Translator.subtitle_block_regex (a fixed Python regex, embedded here
        as an equivalent deterministic matcher, derived clause by clause from
        the backtracking semantics of the pattern)
      - Translator._is_valid_response
      - Translator.translate_subtitle_file_by_chunk / process_chunk
        (the pure content-transformation part; file I/O and logging are not
        modelled, the LLM provider is an oracle returning strings)
  * src/backend/app/services/subtitle_processor.py
      - SubtitleProcessor.merge_segments
      - SubtitleProcessor.create_srt_content
      - SubtitleProcessor.format_timestamp (floats are modelled by exact
        rationals; where a claim hinges on the binary value of a decimal
        float literal, that value is given as an explicit dyadic rational
        certified to be the nearest double)

Strings are modelled as `List Char`, Python ints as `Nat`/`Int`, floats as `ℚ`.
-/

namespace VSG

/-! ### Python string primitives -/

/-- The characters matched by the regex class `\s` and stripped by
`str.strip()` (ASCII range; the source documents are ASCII-structured). -/
def pyIsSpace (c : Char) : Bool :=
  c == ' ' || c == '\t' || c == '\n' || c == '\x0d' || c == '\x0b' || c == '\x0c'

/-- Python `str.strip()`: drop whitespace from both ends. -/
def pyStrip (l : List Char) : List Char :=
  ((l.dropWhile pyIsSpace).reverse.dropWhile pyIsSpace).reverse

/-- Length of the maximal prefix whose characters satisfy `p`. -/
def countWhile (p : Char → Bool) : List Char → Nat
  | [] => 0
  | c :: cs => if p c then countWhile p cs + 1 else 0

/-- The substring `c[a:b]` (Python slice semantics for `0 ≤ a ≤ b`). -/
def sub (c : List Char) (a b : Nat) : List Char := (c.drop a).take (b - a)

/-- The character at index `i`, if any. -/
def charAt (c : List Char) (i : Nat) : Option Char := (c.drop i).head?

/-! ### The subtitle block regex

The orchestrator compiles (with `re.MULTILINE | re.DOTALL`):

  `(\d+\s*\n)?(^\d{2}:\d{2}:\d{2}[,.]\d{3}\s*-->\s*\d{2}:\d{2}:\d{2}[,.]\d{3}\s*$.*?\n)(.+?)(?=\n\n|\Z)`

The matcher below is the deterministic unfolding of the backtracking search
for this fixed pattern:

  * `\d+` is forced maximal (a shorter digit run leaves a digit where
    `\s*\n` must match, which fails at once);
  * `\s*\n` with greedy `\s*` selects newline positions inside the maximal
    whitespace run, last newline first;
  * `\s*-->` and `\s*` before a timestamp are deterministic: the run is
    maximal and shortening it leaves a whitespace where a non-whitespace
    character is required;
  * `\s*$.*?\n` (with `$` multiline and `.` matching newlines) resolves to:
    the last newline `n` of the maximal whitespace run after the timestamps
    such that `n + 1 < length` (the lazy `.*?\n` first consumes the newline
    `\s*` stopped at; a final-character newline fails because `(.+?)` then
    has no character left, and no later newline exists);
  * `(.+?)(?=\n\n|\Z)` takes the least `k ≥ 1` put before a blank line or
    the end of input (such a `k` exists exactly when a character remains).
-/

/-- Maximal run of decimal digits starting at `i` (regex `\d+`, ASCII). -/
def digitRunAt (c : List Char) (i : Nat) : Nat := countWhile Char.isDigit (c.drop i)

/-- Maximal run of whitespace starting at `i` (regex `\s*`). -/
def spaceRunAt (c : List Char) (i : Nat) : Nat := countWhile pyIsSpace (c.drop i)

/-- Does `\d{2}:\d{2}:\d{2}[,.]\d{3}` match at the head of the list? -/
def isTSCorePrefix : List Char → Bool
  | d0 :: d1 :: c1 :: d2 :: d3 :: c2 :: d4 :: d5 :: s :: d6 :: d7 :: d8 :: _ =>
    d0.isDigit && d1.isDigit && c1 == ':' && d2.isDigit && d3.isDigit && c2 == ':' &&
    d4.isDigit && d5.isDigit && (s == ',' || s == '.') && d6.isDigit && d7.isDigit && d8.isDigit
  | _ => false

/-- Does the 12-character timestamp core match at index `i`? -/
def tsCoreAt (c : List Char) (i : Nat) : Bool := isTSCorePrefix (c.drop i)

/-- Does `-->` match at the head of the list? -/
def isArrowPrefix : List Char → Bool
  | a :: b :: d :: _ => a == '-' && b == '-' && d == '>'
  | _ => false

/-- Index of the `-->` arrow: just after the first timestamp core and the
following whitespace run. -/
def arrowPosAt (c : List Char) (q : Nat) : Nat := q + 12 + spaceRunAt c (q + 12)

/-- Index of the second timestamp core: just after the arrow and the
following whitespace run. -/
def ts2PosAt (c : List Char) (q : Nat) : Nat :=
  arrowPosAt c q + 3 + spaceRunAt c (arrowPosAt c q + 3)

/-- Match `\d{2}:\d{2}:\d{2}[,.]\d{3}\s*-->\s*\d{2}:\d{2}:\d{2}[,.]\d{3}`
at index `q`; returns the index just after the second timestamp core. -/
def tsLineAt (c : List Char) (q : Nat) : Option Nat :=
  if tsCoreAt c q then
    if isArrowPrefix (c.drop (arrowPosAt c q)) then
      if tsCoreAt c (ts2PosAt c q) then some (ts2PosAt c q + 12) else none
    else none
  else none

/-- Resolve `\s*$.*?\n` starting at `t` (end of the timestamps): the end of
group 2, i.e. one past the selected newline. -/
def g2EndAt (c : List Char) (t : Nat) : Option Nat :=
  (List.range (spaceRunAt c t)).reverse.findSome? fun w =>
    if charAt c (t + w) = some '\n' ∧ t + w + 1 < c.length then some (t + w + 1) else none

/-- Resolve `(.+?)(?=\n\n|\Z)` starting at `e`: the end of group 3. -/
def g3EndAt (c : List Char) (e : Nat) : Option Nat :=
  (List.range (c.length - e)).findSome? fun j =>
    if e + (j + 1) = c.length ∨
        (charAt c (e + (j + 1)) = some '\n' ∧ charAt c (e + (j + 1) + 1) = some '\n')
    then some (e + (j + 1)) else none

/-- Multiline `^`: start of input or just after a newline. -/
def bolAt (c : List Char) (p : Nat) : Bool :=
  match p with
  | 0 => true
  | q + 1 => charAt c q == some '\n'

/-- A match of the block regex: overall span and the three group spans
(group 1 is the optional index line). -/
structure RMatch where
  ms : Nat
  me : Nat
  g1 : Option (Nat × Nat)
  g2 : Nat × Nat
  g3 : Nat × Nat
deriving DecidableEq

/-- Match groups 2 and 3 with group 2 starting at `q`: returns
`(end of group 2, end of group 3)`. -/
def matchFromQ (c : List Char) (q : Nat) : Option (Nat × Nat) :=
  if bolAt c q then
    (tsLineAt c q).bind fun t =>
      (g2EndAt c t).bind fun e =>
        (g3EndAt c e).map fun f => (e, f)
  else none

/-- The branch of the match attempt at `p` in which group 1 is present.
`p + digitRunAt c p` is the index after the maximal digit run. -/
def matchAtG1 (c : List Char) (p : Nat) : Option RMatch :=
  if digitRunAt c p = 0 then none else
  (List.range (spaceRunAt c (p + digitRunAt c p))).reverse.findSome? fun w =>
    if charAt c (p + digitRunAt c p + w) = some '\n' then
      (matchFromQ c (p + digitRunAt c p + w + 1)).map fun ef =>
        ⟨p, ef.2, some (p, p + digitRunAt c p + w + 1),
          (p + digitRunAt c p + w + 1, ef.1), (ef.1, ef.2)⟩
    else none

/-- The branch of the match attempt at `p` in which group 1 is absent. -/
def matchAtNoG1 (c : List Char) (p : Nat) : Option RMatch :=
  (matchFromQ c p).map fun ef => ⟨p, ef.2, none, (p, ef.1), (ef.1, ef.2)⟩

/-- Attempt to match the block regex at position `p` (group 1 preferred
present, as for a greedy `?`). -/
def matchAt (c : List Char) (p : Nat) : Option RMatch :=
  (matchAtG1 c p).orElse fun _ => matchAtNoG1 c p

/-- Scan for non-overlapping matches left to right, as `re.finditer`. -/
def scanAux (c : List Char) : Nat → Nat → List RMatch
  | 0, _ => []
  | fuel + 1, p =>
    if p > c.length then []
    else match matchAt c p with
      | some m => m :: scanAux c fuel (max m.me (p + 1))
      | none => scanAux c fuel (p + 1)

/-- `finditer(subtitle_block_regex, c)`. -/
def finditer (c : List Char) : List RMatch := scanAux c (c.length + 1) 0

/-- The textual content of a match: the three group strings (group 1 may be
absent, as `m.group(1)` may be `None`). -/
structure Block where
  g1 : Option (List Char)
  g2 : List Char
  g3 : List Char
deriving DecidableEq

/-- Extract the group strings of a match. -/
def blockOf (c : List Char) (m : RMatch) : Block :=
  ⟨m.g1.map (fun ab => sub c ab.1 ab.2), sub c m.g2.1 m.g2.2, sub c m.g3.1 m.g3.2⟩

/-- All blocks of a document, in order. -/
def parseBlocks (c : List Char) : List Block := (finditer c).map (blockOf c)

/-! ### The validator `Translator._is_valid_response` -/

/-- The per-position comparison loop of `_is_valid_response`, with its early
returns: index lines must agree after strip, timestamp lines must be
non-empty after strip and agree, and a block whose original text is
non-empty after strip must not have an empty translated text. -/
def validPairs : List (Block × Block) → Bool
  | [] => true
  | (o, t) :: rest =>
    if pyStrip (o.g1.getD []) ≠ pyStrip (t.g1.getD []) then false
    else if pyStrip o.g2 = [] ∨ pyStrip t.g2 = [] then false
    else if pyStrip o.g2 ≠ pyStrip t.g2 then false
    else if pyStrip t.g3 = [] ∧ pyStrip o.g3 ≠ [] then false
    else validPairs rest

/-- `Translator._is_valid_response(translated_response_str, original_chunk_matches)`.
The first argument is the (already stripped) provider response; the second
the blocks of the original chunk. -/
def isValidResponse (resp : List Char) (origBlocks : List Block) : Bool :=
  if resp = [] ∧ origBlocks = [] then true
  else if origBlocks = [] ∨ resp = [] then false
  else if (parseBlocks resp).length ≠ origBlocks.length then false
  else validPairs (origBlocks.zip (parseBlocks resp))

/-- The acceptance condition as the specification states it: re-parsing
yields exactly as many blocks, positionwise the stripped index lines agree,
the stripped timestamp lines agree, and a non-empty original text forces a
non-empty response text. -/
def validSpecC1 (resp : List Char) (origBlocks : List Block) : Prop :=
  (parseBlocks resp).length = origBlocks.length ∧
  ∀ p ∈ origBlocks.zip (parseBlocks resp),
    pyStrip (p.1.g1.getD []) = pyStrip (p.2.g1.getD []) ∧
    pyStrip p.1.g2 = pyStrip p.2.g2 ∧
    (pyStrip p.1.g3 ≠ [] → pyStrip p.2.g3 ≠ [])

instance validSpecC1.dec (resp : List Char) (origBlocks : List Block) :
    Decidable (validSpecC1 resp origBlocks) := by
  unfold validSpecC1; infer_instance

/-! ### Supporting lemmas: parsed timestamp lines never strip to empty -/

theorem mem_dropWhile_of_not {p : Char → Bool} {l : List Char} {x : Char}
    (hx : x ∈ l) (hpx : p x = false) : x ∈ l.dropWhile p := by
  induction l with
  | nil => cases hx
  | cons c cs ih =>
    rw [List.dropWhile_cons]
    by_cases hc : p c = true
    · simp only [hc, if_true]
      rcases List.mem_cons.mp hx with rfl | hmem
      · rw [hc] at hpx; cases hpx
      · exact ih hmem
    · simp only [hc, if_false]
      exact hx

theorem pyStrip_ne_nil_of_mem {l : List Char} {x : Char}
    (hx : x ∈ l) (hpx : pyIsSpace x = false) : pyStrip l ≠ [] := by
  unfold pyStrip
  intro h
  rw [List.reverse_eq_nil_iff] at h
  have h1 : x ∈ l.dropWhile pyIsSpace := mem_dropWhile_of_not hx hpx
  have h2 : x ∈ (l.dropWhile pyIsSpace).reverse := List.mem_reverse.mpr h1
  have h3 : x ∈ (l.dropWhile pyIsSpace).reverse.dropWhile pyIsSpace :=
    mem_dropWhile_of_not h2 hpx
  rw [h] at h3
  cases h3

theorem pyIsSpace_eq_false_of_isDigit {c : Char} (h : c.isDigit = true) :
    pyIsSpace c = false := by
  by_contra hc
  rw [Bool.not_eq_false] at hc
  unfold pyIsSpace at hc
  simp only [Bool.or_eq_true, beq_iff_eq] at hc
  rcases hc with ((((rfl | rfl) | rfl) | rfl) | rfl) | rfl <;> exact absurd h (by decide)

theorem findSome?_eq_some_ex {α β : Type} {f : α → Option β} {l : List α} {b : β}
    (h : l.findSome? f = some b) : ∃ a ∈ l, f a = some b := by
  induction l with
  | nil => simp [List.findSome?] at h
  | cons a l ih =>
    rw [List.findSome?] at h
    cases hfa : f a with
    | some v =>
      rw [hfa] at h
      exact ⟨a, List.mem_cons_self a l, hfa.trans h⟩
    | none =>
      rw [hfa] at h
      obtain ⟨a, hmem, hfa'⟩ := ih h
      exact ⟨a, List.mem_cons_of_mem _ hmem, hfa'⟩

/-- Unpack a successful `matchFromQ` into its components. -/
theorem matchFromQ_elim {c : List Char} {q e f : Nat}
    (h : matchFromQ c q = some (e, f)) :
    bolAt c q = true ∧ ∃ t, tsLineAt c q = some t ∧ g2EndAt c t = some e ∧
      g3EndAt c e = some f := by
  unfold matchFromQ at h
  split at h
  case isFalse => cases h
  case isTrue hbol =>
    cases hts : tsLineAt c q with
    | none => rw [hts] at h; cases h
    | some t =>
      rw [hts, Option.some_bind] at h
      cases hg2 : g2EndAt c t with
      | none => rw [hg2] at h; cases h
      | some e' =>
        rw [hg2, Option.some_bind] at h
        cases hg3 : g3EndAt c e' with
        | none => rw [hg3] at h; cases h
        | some f' =>
          rw [hg3, Option.map_some'] at h
          cases h
          exact ⟨hbol, t, rfl, hg2, hg3⟩

/-- Unpack a successful `tsLineAt`. -/
theorem tsLineAt_elim {c : List Char} {q t : Nat} (h : tsLineAt c q = some t) :
    tsCoreAt c q = true ∧ q + 12 ≤ t := by
  unfold tsLineAt at h
  split at h
  case isFalse => cases h
  case isTrue hc =>
    split at h
    case isFalse => cases h
    case isTrue =>
      split at h
      case isFalse => cases h
      case isTrue =>
        refine ⟨hc, ?_⟩
        cases h
        unfold ts2PosAt arrowPosAt
        omega

/-- Unpack a successful `g2EndAt`: the end is past `t`, inside the string,
and one past a newline. -/
theorem g2EndAt_elim {c : List Char} {t e : Nat} (h : g2EndAt c t = some e) :
    t < e ∧ e < c.length ∧ charAt c (e - 1) = some '\n' := by
  obtain ⟨w, _, hw⟩ := findSome?_eq_some_ex h
  split at hw
  case isFalse => cases hw
  case isTrue hcond =>
    cases hw
    exact ⟨by omega, by omega, by simpa using hcond.1⟩

/-- Key facts about the group-2 span of a successful sub-match: it starts
with a timestamp core (hence a digit), is non-empty, and lies inside `c`. -/
theorem matchFromQ_facts {c : List Char} {q e f : Nat}
    (h : matchFromQ c q = some (e, f)) :
    tsCoreAt c q = true ∧ q < e ∧ e ≤ c.length := by
  obtain ⟨-, t, hts, hg2, -⟩ := matchFromQ_elim h
  obtain ⟨hcore, hle⟩ := tsLineAt_elim hts
  obtain ⟨h1, h2, -⟩ := g2EndAt_elim hg2
  exact ⟨hcore, by omega, by omega⟩

/-- A successful `matchAt` is one of the two branches. -/
theorem matchAt_cases {c : List Char} {p : Nat} {m : RMatch}
    (h : matchAt c p = some m) :
    matchAtG1 c p = some m ∨ (matchAtG1 c p = none ∧ matchAtNoG1 c p = some m) := by
  unfold matchAt at h
  cases hg : matchAtG1 c p with
  | some m' =>
    rw [hg] at h
    simp only [Option.orElse] at h
    exact Or.inl h
  | none =>
    rw [hg] at h
    simp only [Option.orElse] at h
    exact Or.inr ⟨rfl, h⟩

theorem matchAt_g2 {c : List Char} {p : Nat} {m : RMatch}
    (h : matchAt c p = some m) :
    matchFromQ c m.g2.1 = some (m.g2.2, m.g3.2) := by
  rcases matchAt_cases h with h1 | ⟨-, h2⟩
  · unfold matchAtG1 at h1
    split at h1
    case isTrue => cases h1
    case isFalse =>
      obtain ⟨w, _, hw⟩ := findSome?_eq_some_ex h1
      split at hw
      case isFalse => cases hw
      case isTrue =>
        cases hq : matchFromQ c (p + digitRunAt c p + w + 1) with
        | none => rw [hq] at hw; cases hw
        | some ef => rw [hq] at hw; cases hw; exact hq
  · unfold matchAtNoG1 at h2
    cases hq : matchFromQ c p with
    | none => rw [hq] at h2; cases h2
    | some ef => rw [hq] at h2; cases h2; exact hq

/-- Every match in the scan output arises from a `matchAt`. -/
theorem mem_scanAux {c : List Char} {m : RMatch} :
    ∀ {fuel p : Nat}, m ∈ scanAux c fuel p → ∃ q, matchAt c q = some m := by
  intro fuel
  induction fuel with
  | zero => intro p h; cases h
  | succ n ih =>
    intro p h
    rw [scanAux] at h
    split at h
    · cases h
    · split at h
      case h_1 m' hm' =>
        rcases List.mem_cons.mp h with rfl | hmem
        · exact ⟨p, hm'⟩
        · exact ih hmem
      case h_2 => exact ih h

/-- A list satisfying the timestamp core prefix starts with a digit. -/
theorem isTSCorePrefix_head {l : List Char} (h : isTSCorePrefix l = true) :
    ∃ d rest, l = d :: rest ∧ d.isDigit = true := by
  unfold isTSCorePrefix at h
  split at h
  next d0 d1 c1 d2 d3 c2 d4 d5 s d6 d7 d8 tail =>
    simp only [Bool.and_eq_true] at h
    exact ⟨d0, _, rfl, h.1.1.1.1.1.1.1.1.1.1.1⟩
  next => cases h

theorem parseBlocks_g2_strip_ne_nil {c : List Char} {b : Block}
    (hb : b ∈ parseBlocks c) : pyStrip b.g2 ≠ [] := by
  obtain ⟨m, hm, rfl⟩ := List.mem_map.mp hb
  obtain ⟨q, hq⟩ := mem_scanAux hm
  obtain ⟨hcore, hlt, hle⟩ := matchFromQ_facts (matchAt_g2 hq)
  unfold tsCoreAt at hcore
  obtain ⟨d, rest, hdrop, hd⟩ := isTSCorePrefix_head hcore
  have hmem : d ∈ (blockOf c m).g2 := by
    show d ∈ sub c m.g2.1 m.g2.2
    unfold sub
    rw [hdrop]
    cases hn : m.g2.2 - m.g2.1 with
    | zero => omega
    | succ k => exact List.mem_cons_self _ _
  exact pyStrip_ne_nil_of_mem hmem (pyIsSpace_eq_false_of_isDigit hd)

/-- The comparison loop agrees with the positionwise specification whenever
every translated block has a non-empty stripped timestamp line. -/
theorem validPairs_iff : ∀ {ps : List (Block × Block)},
    (∀ p ∈ ps, pyStrip p.2.g2 ≠ []) →
    (validPairs ps = true ↔
      ∀ p ∈ ps,
        pyStrip (p.1.g1.getD []) = pyStrip (p.2.g1.getD []) ∧
        pyStrip p.1.g2 = pyStrip p.2.g2 ∧
        (pyStrip p.1.g3 ≠ [] → pyStrip p.2.g3 ≠ [])) := by
  intro ps
  induction ps with
  | nil => intro _; simp [validPairs]
  | cons hd rest ih =>
    intro hps
    obtain ⟨o, t⟩ := hd
    have ht2 : pyStrip t.g2 ≠ [] := hps (o, t) (List.mem_cons_self _ _)
    have hih := ih (fun p hp => hps p (List.mem_cons_of_mem _ hp))
    rw [validPairs]
    split_ifs with h1 h2 h3 h4
    · simp only [Bool.false_eq_true, false_iff]
      intro hall
      exact h1 ((hall (o, t) (List.mem_cons_self _ _)).1)
    · simp only [Bool.false_eq_true, false_iff]
      intro hall
      have heq := (hall (o, t) (List.mem_cons_self _ _)).2.1
      rcases h2 with h2 | h2
      · exact ht2 (heq ▸ h2)
      · exact ht2 h2
    · simp only [Bool.false_eq_true, false_iff]
      intro hall
      exact h3 ((hall (o, t) (List.mem_cons_self _ _)).2.1)
    · simp only [Bool.false_eq_true, false_iff]
      intro hall
      exact ((hall (o, t) (List.mem_cons_self _ _)).2.2 h4.2) h4.1
    · rw [hih]
      constructor
      · intro hrest p hp
        rcases List.mem_cons.mp hp with rfl | hp
        · exact ⟨not_not.mp h1, not_not.mp h3, fun ho3 ht3 => h4 ⟨ht3, ho3⟩⟩
        · exact hrest p hp
      · intro hall p hp
        exact hall p (List.mem_cons_of_mem _ hp)

/-- C1. Validation acceptance condition: for a chunk of `n ≥ 1` original
blocks and any (stripped) provider response, `_is_valid_response` accepts
the response if and only if re-parsing it with the subtitle block regex
yields exactly `n` blocks, positionwise the stripped index lines agree, the
stripped timestamp lines agree exactly, and a position whose original body
strips non-empty has a response body stripping non-empty; moreover an empty
response against an empty chunk is valid. -/
theorem claim1_validator_accepts_iff (resp : List Char) (origBlocks : List Block)
    (hne : origBlocks ≠ []) :
    ((isValidResponse resp origBlocks = true) ↔ validSpecC1 resp origBlocks) ∧
    isValidResponse [] [] = true := by
  constructor
  · have hg2 : ∀ p ∈ origBlocks.zip (parseBlocks resp), pyStrip p.2.g2 ≠ [] :=
      fun p hp => parseBlocks_g2_strip_ne_nil (List.of_mem_zip hp).2
    unfold isValidResponse validSpecC1
    rw [if_neg (by simp [hne])]
    by_cases hresp : resp = []
    · rw [if_pos (Or.inr hresp)]
      subst hresp
      have hpb : parseBlocks ([] : List Char) = [] := rfl
      rw [hpb]
      simp only [List.length_nil, Bool.false_eq_true, false_iff]
      intro hcon
      exact hne (List.length_eq_zero.mp hcon.1.symm)
    · rw [if_neg (by simp [hresp, hne])]
      by_cases hlen : (parseBlocks resp).length = origBlocks.length
      · rw [if_neg (not_not_intro hlen), validPairs_iff hg2]
        exact ⟨fun h => ⟨hlen, h⟩, fun h => h.2⟩
      · rw [if_pos hlen]
        simp only [Bool.false_eq_true, false_iff]
        intro hcon
        exact hlen hcon.1
  · decide

/-- Concrete original chunk blocks for the C1 witness. -/
def blocksW : List Block := parseBlocks ("1\n00:00:00,000 --> 00:00:01,000\nHi".data)

/-- Concrete provider response for the C1 witness. -/
def respW : List Char := "1\n00:00:00,000 --> 00:00:01,000\nHola".data

/-- Witness for C1 at a concrete chunk and response. -/
theorem claim1_validator_accepts_iff_witness :
    blocksW ≠ [] ∧
    (((isValidResponse respW blocksW = true) ↔ validSpecC1 respW blocksW) ∧
      isValidResponse [] [] = true) :=
  ⟨by decide, claim1_validator_accepts_iff respW blocksW (by decide)⟩

/-! ### SubtitleProcessor.merge_segments

Segment times are Python floats, modelled as exact rationals; texts are
strings. `merge_segments` converts each segment to a cue dict with stripped
text and folds left to right, merging or emitting. -/

/-- An input transcription segment. -/
structure Seg where
  start : ℚ
  endTime : ℚ
  text : List Char
deriving DecidableEq

/-- An output cue (the `current` dict of the loop). -/
structure Cue where
  start : ℚ
  endTime : ℚ
  text : List Char
deriving DecidableEq

/-- `self.end_punctuations = [".", "!", "?", "..."]`. -/
def endPunctuations : List (List Char) := [['.'], ['!'], ['?'], ['.', '.', '.']]

/-- `current["text"][-1] if current["text"] else ""`. -/
def lastCharStr (t : List Char) : List Char :=
  match t.getLast? with
  | some c => [c]
  | none => []

/-- `last_char in self.end_punctuations or any(current["text"].endswith(p) ...)`. -/
def endsWithPunc (t : List Char) : Bool :=
  decide (lastCharStr t ∈ endPunctuations) ||
    endPunctuations.any fun p => p.isSuffixOf t

/-- The `should_merge` decision chain of `merge_segments`. -/
def shouldMerge (maxGap : ℚ) (maxChars minChars : Nat) (cur : Cue)
    (nextText : List Char) (nextStart : ℚ) : Bool :=
  if nextStart - cur.endTime > maxGap then false
  else if nextText.length + cur.text.length + 1 > maxChars then false
  else if !endsWithPunc cur.text then true
  else if cur.text.length < minChars then true
  else false

/-- The loop body of `merge_segments` over the remaining segments. -/
def mergeGo (maxGap : ℚ) (maxChars minChars : Nat) : Cue → List Seg → List Cue
  | cur, [] => [cur]
  | cur, n :: rest =>
    if shouldMerge maxGap maxChars minChars cur (pyStrip n.text) n.start then
      mergeGo maxGap maxChars minChars
        ⟨cur.start, n.endTime, cur.text ++ ' ' :: pyStrip n.text⟩ rest
    else
      cur :: mergeGo maxGap maxChars minChars ⟨n.start, n.endTime, pyStrip n.text⟩ rest

/-- `SubtitleProcessor.merge_segments`. -/
def mergeSegments (maxGap : ℚ) (maxChars minChars : Nat) : List Seg → List Cue
  | [] => []
  | s :: rest => mergeGo maxGap maxChars minChars ⟨s.start, s.endTime, pyStrip s.text⟩ rest

/-- The merge rule exactly as the specification words it: merge iff the gap
is within `max_gap`, the projected length within `max_chars`, and the
current text does not end with a closing punctuation or is still shorter
than `min_chars`. -/
def mergeRuleSpec (maxGap : ℚ) (maxChars minChars : Nat) (cur : Cue)
    (nextText : List Char) (nextStart : ℚ) : Prop :=
  nextStart - cur.endTime ≤ maxGap ∧
  cur.text.length + 1 + nextText.length ≤ maxChars ∧
  (¬((endPunctuations.any fun p => p.isSuffixOf cur.text) = true) ∨
    cur.text.length < minChars)

instance mergeRuleSpec.dec (maxGap : ℚ) (maxChars minChars : Nat) (cur : Cue)
    (nextText : List Char) (nextStart : ℚ) :
    Decidable (mergeRuleSpec maxGap maxChars minChars cur nextText nextStart) := by
  unfold mergeRuleSpec; infer_instance

/-- The merge loop driven by the specification's rule. -/
def mergeGoSpec (maxGap : ℚ) (maxChars minChars : Nat) : Cue → List Seg → List Cue
  | cur, [] => [cur]
  | cur, n :: rest =>
    if mergeRuleSpec maxGap maxChars minChars cur (pyStrip n.text) n.start then
      mergeGoSpec maxGap maxChars minChars
        ⟨cur.start, n.endTime, cur.text ++ ' ' :: pyStrip n.text⟩ rest
    else
      cur :: mergeGoSpec maxGap maxChars minChars ⟨n.start, n.endTime, pyStrip n.text⟩ rest

/-- `merge_segments` as the specification describes it. -/
def mergeSegmentsSpec (maxGap : ℚ) (maxChars minChars : Nat) : List Seg → List Cue
  | [] => []
  | s :: rest => mergeGoSpec maxGap maxChars minChars ⟨s.start, s.endTime, pyStrip s.text⟩ rest

/-- A list whose last element is `c` ends with the one-character suffix `[c]`. -/
theorem getLast?_isSuffixOf {t : List Char} {c : Char} (h : t.getLast? = some c) :
    [c].isSuffixOf t = true := by
  rcases t.eq_nil_or_concat with rfl | ⟨ys, y, rfl⟩
  · cases h
  · rw [List.concat_eq_append, List.getLast?_concat] at h
    cases h
    rw [List.concat_eq_append]
    simp [List.isSuffixOf, List.isPrefixOf, List.reverse_append]

/-- The code's two-part punctuation test equals the plain suffix test: the
`last_char in end_punctuations` disjunct is subsumed by `endswith`. -/
theorem endsWithPunc_eq (t : List Char) :
    endsWithPunc t = (endPunctuations.any fun p => p.isSuffixOf t) := by
  unfold endsWithPunc
  cases hc : decide (lastCharStr t ∈ endPunctuations) with
  | false => rw [Bool.false_or]
  | true =>
    rw [Bool.true_or]
    have hmem : lastCharStr t ∈ endPunctuations := of_decide_eq_true hc
    unfold lastCharStr at hmem
    cases hl : t.getLast? with
    | none => rw [hl] at hmem; simp [endPunctuations] at hmem
    | some c =>
      rw [hl] at hmem
      have hsuf : [c].isSuffixOf t = true := getLast?_isSuffixOf hl
      have hdot : [c] = ['.'] ∨ [c] = ['!'] ∨ [c] = ['?'] := by
        simp only [endPunctuations, List.mem_cons, List.not_mem_nil, or_false] at hmem
        rcases hmem with h | h | h | h
        · exact Or.inl h
        · exact Or.inr (Or.inl h)
        · exact Or.inr (Or.inr h)
        · exact absurd h (by simp)
      symm
      simp only [endPunctuations, List.any_cons, List.any_nil, Bool.or_eq_true]
      rcases hdot with h | h | h <;> rw [h] at hsuf <;> tauto

/-- The boolean decision chain agrees with the specification's rule. -/
theorem shouldMerge_iff (maxGap : ℚ) (maxChars minChars : Nat) (cur : Cue)
    (nextText : List Char) (nextStart : ℚ) :
    shouldMerge maxGap maxChars minChars cur nextText nextStart = true ↔
      mergeRuleSpec maxGap maxChars minChars cur nextText nextStart := by
  unfold shouldMerge mergeRuleSpec
  rw [endsWithPunc_eq]
  split_ifs with h1 h2 h3 h4
  · simp only [Bool.false_eq_true, false_iff]
    intro hc
    exact absurd hc.1 (not_le.mpr h1)
  · simp only [Bool.false_eq_true, false_iff]
    intro hc
    have := hc.2.1
    omega
  · rw [Bool.not_eq_true'] at h3
    simp only [true_iff]
    exact ⟨not_lt.mp h1, by omega, Or.inl (by rw [h3]; exact Bool.false_ne_true)⟩
  · simp only [true_iff]
    exact ⟨not_lt.mp h1, by omega, Or.inr h4⟩
  · simp only [Bool.false_eq_true, false_iff]
    intro hc
    rcases hc.2.2 with hp | hp
    · refine hp ?_
      cases hb : (endPunctuations.any fun p => p.isSuffixOf cur.text) with
      | true => rfl
      | false => rw [hb] at h3; exact absurd rfl h3
    · exact h4 hp

/-- The two merge loops agree. -/
theorem mergeGo_eq_spec (maxGap : ℚ) (maxChars minChars : Nat) :
    ∀ (rest : List Seg) (cur : Cue),
      mergeGo maxGap maxChars minChars cur rest =
        mergeGoSpec maxGap maxChars minChars cur rest := by
  intro rest
  induction rest with
  | nil => intro cur; rfl
  | cons n rest ih =>
    intro cur
    rw [mergeGo, mergeGoSpec]
    by_cases h : mergeRuleSpec maxGap maxChars minChars cur (pyStrip n.text) n.start
    · rw [if_pos ((shouldMerge_iff maxGap maxChars minChars cur (pyStrip n.text) n.start).mpr h),
        if_pos h, ih]
    · rw [if_neg fun hc =>
          h ((shouldMerge_iff maxGap maxChars minChars cur (pyStrip n.text) n.start).mp hc),
        if_neg h, ih]

/-- C3. Merge decision rule: `merge_segments` processes segments left to
right and merges exactly under the specification's rule (gap within
`max_gap`, projected length within `max_chars`, and unfinished sentence or
text shorter than `min_chars`), joining texts with a single space, keeping
the start and taking the new end on merge, and emitting the current cue on
non-merge; the final cue is always emitted. -/
theorem claim3_merge_decision_rule (maxGap : ℚ) (maxChars minChars : Nat)
    (segs : List Seg) :
    mergeSegments maxGap maxChars minChars segs =
      mergeSegmentsSpec maxGap maxChars minChars segs := by
  cases segs with
  | nil => rfl
  | cons s rest => exact mergeGo_eq_spec maxGap maxChars minChars rest _

/-! ### Claim C7: the `max_gap = 0` configuration -/

/-- With `max_gap = 0`, a strictly positive gap forces emission. -/
theorem shouldMerge_gap_pos {maxChars minChars : Nat} {cur : Cue} {nt : List Char}
    {ns : ℚ} (h : 0 < ns - cur.endTime) :
    shouldMerge 0 maxChars minChars cur nt ns = false := by
  unfold shouldMerge
  rw [if_pos h]

/-- C7 counterexample: with `max_gap = 0` and overlapping spans
(`gap = 1 - 5 ≤ 0`), two segments still merge, so `merge_segments` does not
return one cue per segment. -/
theorem claim7_counterexample :
    mergeSegments 0 90 20 [⟨0, 5, ['a']⟩, ⟨1, 6, ['b']⟩] ≠
      ([⟨0, 5, ['a']⟩, ⟨1, 6, ['b']⟩] : List Seg).map
        (fun s => ⟨s.start, s.endTime, pyStrip s.text⟩) := by
  have hs1 : pyStrip ['a'] = ['a'] := by decide
  have hs2 : pyStrip ['b'] = ['b'] := by decide
  have h1 : shouldMerge 0 90 20 ⟨0, 5, ['a']⟩ ['b'] 1 = true :=
    (shouldMerge_iff 0 90 20 ⟨0, 5, ['a']⟩ ['b'] 1).mpr ⟨by norm_num, by decide, by decide⟩
  have hm : mergeSegments 0 90 20 [⟨0, 5, ['a']⟩, ⟨1, 6, ['b']⟩] =
      [⟨0, 6, ['a', ' ', 'b']⟩] := by
    rw [mergeSegments, hs1, mergeGo, hs2, h1, if_pos rfl, mergeGo]
    rfl
  rw [hm]
  intro hc
  rw [List.map_cons, List.map_cons, List.map_nil] at hc
  simp at hc

/-- Under `max_gap = 0` every step emits when each next segment starts
strictly after the current end. -/
theorem mergeGo_maxGap_zero (maxChars minChars : Nat) :
    ∀ (rest : List Seg) (cur : Cue),
      (∀ n, rest.head? = some n → cur.endTime < n.start) →
      rest.Chain' (fun a b => a.endTime < b.start) →
      mergeGo 0 maxChars minChars cur rest =
        cur :: rest.map fun s => ⟨s.start, s.endTime, pyStrip s.text⟩ := by
  intro rest
  induction rest with
  | nil => intro cur _ _; rfl
  | cons n rest ih =>
    intro cur hcur hchain
    have hfalse : shouldMerge 0 maxChars minChars cur (pyStrip n.text) n.start = false :=
      shouldMerge_gap_pos (by have := hcur n rfl; linarith)
    rw [mergeGo, hfalse, if_neg Bool.false_ne_true, List.map_cons]
    congr 1
    rcases List.chain'_cons'.mp hchain with ⟨hhead, htail⟩
    exact ih ⟨n.start, n.endTime, pyStrip n.text⟩ (fun m hm => hhead m hm) htail

/-- C7 (amended). No-merge configuration: with `max_gap = 0`,
`merge_segments` returns one cue per segment (same span, trimmed text)
provided every segment starts strictly after the previous segment ends;
with touching or overlapping segments the gap is `≤ 0` and merging can
still occur. -/
theorem claim7_no_merge_config (maxChars minChars : Nat) (segs : List Seg)
    (h : segs.Chain' fun a b => a.endTime < b.start) :
    mergeSegments 0 maxChars minChars segs =
      segs.map fun s => ⟨s.start, s.endTime, pyStrip s.text⟩ := by
  cases segs with
  | nil => rfl
  | cons s rest =>
    rcases List.chain'_cons'.mp h with ⟨hhead, htail⟩
    rw [mergeSegments, List.map_cons]
    exact mergeGo_maxGap_zero maxChars minChars rest _ (fun m hm => hhead m hm) htail

/-- Witness for C7 at a concrete strictly gapped sequence. -/
theorem claim7_no_merge_config_witness :
    (([⟨0, 1, ['a']⟩, ⟨2, 3, ['b']⟩] : List Seg).Chain' fun a b => a.endTime < b.start) ∧
    mergeSegments 0 90 20 [⟨0, 1, ['a']⟩, ⟨2, 3, ['b']⟩] =
      ([⟨0, 1, ['a']⟩, ⟨2, 3, ['b']⟩] : List Seg).map
        (fun s => ⟨s.start, s.endTime, pyStrip s.text⟩) := by
  have hch : ([⟨0, 1, ['a']⟩, ⟨2, 3, ['b']⟩] : List Seg).Chain'
      (fun a b => a.endTime < b.start) := by
    rw [List.chain'_cons]
    exact ⟨by norm_num, List.chain'_singleton _⟩
  exact ⟨hch, claim7_no_merge_config 90 20 _ hch⟩

/-! ### Claim C9: span conservation -/

/-- `mergeGo` never returns an empty list and its first cue keeps the start
of the incoming current cue. -/
theorem mergeGo_ne_nil_head_start (maxGap : ℚ) (maxChars minChars : Nat) :
    ∀ (rest : List Seg) (cur : Cue),
      ∃ c t, mergeGo maxGap maxChars minChars cur rest = c :: t ∧ c.start = cur.start := by
  intro rest
  induction rest with
  | nil => intro cur; exact ⟨cur, [], rfl, rfl⟩
  | cons n rest ih =>
    intro cur
    rw [mergeGo]
    by_cases h : shouldMerge maxGap maxChars minChars cur (pyStrip n.text) n.start = true
    · rw [if_pos h]
      obtain ⟨c, t, heq, hst⟩ := ih ⟨cur.start, n.endTime, cur.text ++ ' ' :: pyStrip n.text⟩
      exact ⟨c, t, heq, hst⟩
    · rw [if_neg h]
      obtain ⟨c, t, heq, hst⟩ := ih ⟨n.start, n.endTime, pyStrip n.text⟩
      exact ⟨cur, mergeGo maxGap maxChars minChars ⟨n.start, n.endTime, pyStrip n.text⟩ rest,
        rfl, rfl⟩

/-- Reading the final end time through a cons. -/
theorem getLast?_endTime_cons (n : Seg) (rest : List Seg) (x : ℚ) :
    (((n :: rest).getLast?.map Seg.endTime).getD x) =
      ((rest.getLast?.map Seg.endTime).getD n.endTime) := by
  cases rest with
  | nil => rfl
  | cons u r => rw [List.getLast?_cons_cons]; rfl

/-- The last cue of `mergeGo` carries the end time of the last segment (or
of the current cue when no segment remains). -/
theorem mergeGo_getLast_end (maxGap : ℚ) (maxChars minChars : Nat) :
    ∀ (rest : List Seg) (cur : Cue),
      ∃ l, (mergeGo maxGap maxChars minChars cur rest).getLast? = some l ∧
        l.endTime = ((rest.getLast?.map Seg.endTime).getD cur.endTime) := by
  intro rest
  induction rest with
  | nil => intro cur; exact ⟨cur, rfl, rfl⟩
  | cons n rest ih =>
    intro cur
    rw [mergeGo]
    by_cases h : shouldMerge maxGap maxChars minChars cur (pyStrip n.text) n.start = true
    · rw [if_pos h]
      obtain ⟨l, hl, he⟩ := ih ⟨cur.start, n.endTime, cur.text ++ ' ' :: pyStrip n.text⟩
      exact ⟨l, hl, by rw [he, getLast?_endTime_cons]⟩
    · rw [if_neg h]
      obtain ⟨l, hl, he⟩ := ih ⟨n.start, n.endTime, pyStrip n.text⟩
      obtain ⟨c, t, heq, -⟩ :=
        mergeGo_ne_nil_head_start maxGap maxChars minChars rest ⟨n.start, n.endTime, pyStrip n.text⟩
      refine ⟨l, ?_, by rw [he, getLast?_endTime_cons]⟩
      rw [heq, List.getLast?_cons_cons, ← heq]
      exact hl

/-- The cues of `mergeGo` are ordered and non-overlapping when the input
is. -/
theorem mergeGo_chain (maxGap : ℚ) (maxChars minChars : Nat) :
    ∀ (rest : List Seg) (cur : Cue),
      (∀ n, rest.head? = some n → cur.endTime ≤ n.start ∧ cur.start ≤ n.start) →
      rest.Chain' (fun a b => a.endTime ≤ b.start) →
      rest.Chain' (fun a b => a.start ≤ b.start) →
      (mergeGo maxGap maxChars minChars cur rest).Chain'
        (fun a b => a.endTime ≤ b.start ∧ a.start ≤ b.start) := by
  intro rest
  induction rest with
  | nil => intro cur _ _ _; exact List.chain'_singleton cur
  | cons n rest ih =>
    intro cur hcur hce hcs
    rcases List.chain'_cons'.mp hce with ⟨hceh, hcet⟩
    rcases List.chain'_cons'.mp hcs with ⟨hcsh, hcst⟩
    rw [mergeGo]
    by_cases h : shouldMerge maxGap maxChars minChars cur (pyStrip n.text) n.start = true
    · rw [if_pos h]
      refine ih _ ?_ hcet hcst
      intro m hm
      exact ⟨hceh m hm, le_trans (hcur n rfl).2 (hcsh m hm)⟩
    · rw [if_neg h]
      obtain ⟨c, t, heq, hst⟩ :=
        mergeGo_ne_nil_head_start maxGap maxChars minChars rest ⟨n.start, n.endTime, pyStrip n.text⟩
      rw [heq, List.chain'_cons]
      constructor
      · rw [hst]
        exact ⟨(hcur n rfl).1, (hcur n rfl).2⟩
      · rw [← heq]
        exact ih _ (fun m hm => ⟨hceh m hm, hcsh m hm⟩) hcet hcst

/-- C9 counterexample: with non-decreasing starts but overlapping spans,
the emitted cues overlap (`cues[0].end = 5 > 1 = cues[1].start`), violating
the claimed non-overlap. -/
theorem claim9_counterexample :
    (([⟨0, 5, "This is a sentence now.".data⟩, ⟨1, 6, ['b']⟩] : List Seg) ≠ []) ∧
    (([⟨0, 5, "This is a sentence now.".data⟩, ⟨1, 6, ['b']⟩] : List Seg).Chain'
      fun a b => a.start ≤ b.start) ∧
    ¬ ((mergeSegments (7/10) 90 20
        [⟨0, 5, "This is a sentence now.".data⟩, ⟨1, 6, ['b']⟩]).Chain'
      fun a b => a.endTime ≤ b.start) := by
  refine ⟨List.cons_ne_nil _ _, ?_, ?_⟩
  · rw [List.chain'_cons]
    exact ⟨by norm_num, List.chain'_singleton _⟩
  · intro hchain
    have hsT : pyStrip ("This is a sentence now.".data) = "This is a sentence now.".data := by
      decide
    have hs2 : pyStrip ['b'] = ['b'] := by decide
    have h1 : shouldMerge (7/10) 90 20 ⟨0, 5, "This is a sentence now.".data⟩ ['b'] 1 =
        false := by
      cases hb : shouldMerge (7/10) 90 20 ⟨0, 5, "This is a sentence now.".data⟩ ['b'] 1 with
      | false => rfl
      | true =>
        rcases ((shouldMerge_iff (7/10) 90 20 ⟨0, 5, "This is a sentence now.".data⟩
            ['b'] 1).mp hb).2.2 with hp | hp
        · exact absurd (by decide) hp
        · exact absurd hp (by decide)
    have hcomp : mergeSegments (7/10) 90 20
        [⟨0, 5, "This is a sentence now.".data⟩, ⟨1, 6, ['b']⟩] =
        [⟨0, 5, "This is a sentence now.".data⟩, ⟨1, 6, ['b']⟩] := by
      rw [mergeSegments, hsT, mergeGo, hs2, h1, if_neg Bool.false_ne_true, mergeGo]
    rw [hcomp, List.chain'_cons] at hchain
    have : (5 : ℚ) ≤ 1 := hchain.1
    norm_num at this

/-- C9 (amended). Span conservation: for a non-empty input the first cue
starts where the first segment starts and the last cue ends where the last
segment ends; and when additionally each segment starts no earlier than the
previous segment's end, the cues are ordered and never overlapping. (With
merely non-decreasing starts, overlapping inputs yield overlapping cues.) -/
theorem claim9_span_conservation (maxGap : ℚ) (maxChars minChars : Nat)
    (segs : List Seg) (hne : segs ≠ [])
    (hstarts : segs.Chain' fun a b => a.start ≤ b.start) :
    ((mergeSegments maxGap maxChars minChars segs).head?.map Cue.start =
        segs.head?.map Seg.start) ∧
    ((mergeSegments maxGap maxChars minChars segs).getLast?.map Cue.endTime =
        segs.getLast?.map Seg.endTime) ∧
    ((segs.Chain' fun a b => a.endTime ≤ b.start) →
      (mergeSegments maxGap maxChars minChars segs).Chain'
        fun a b => a.endTime ≤ b.start ∧ a.start ≤ b.start) := by
  cases segs with
  | nil => exact absurd rfl hne
  | cons s rest =>
    rcases List.chain'_cons'.mp hstarts with ⟨hsh, hst⟩
    refine ⟨?_, ?_, ?_⟩
    · obtain ⟨c, t, heq, hstart⟩ :=
        mergeGo_ne_nil_head_start maxGap maxChars minChars rest ⟨s.start, s.endTime, pyStrip s.text⟩
      rw [mergeSegments, heq]
      simp [hstart]
    · obtain ⟨l, hl, he⟩ :=
        mergeGo_getLast_end maxGap maxChars minChars rest ⟨s.start, s.endTime, pyStrip s.text⟩
      rw [mergeSegments, hl]
      cases rest with
      | nil => simpa using he
      | cons u r =>
        rw [List.getLast?_cons_cons]
        cases hgl : (u :: r).getLast? with
        | none => simp at hgl
        | some v =>
          rw [hgl] at he
          simpa using he
    · intro hends
      rcases List.chain'_cons'.mp hends with ⟨heh, het⟩
      rw [mergeSegments]
      exact mergeGo_chain maxGap maxChars minChars rest _
        (fun m hm => ⟨heh m hm, hsh m hm⟩) het hst

/-- Witness for C9 at a concrete ordered, non-overlapping input. -/
theorem claim9_span_conservation_witness :
    (([⟨0, 1, ['a']⟩, ⟨2, 3, ['b']⟩] : List Seg) ≠ []) ∧
    (([⟨0, 1, ['a']⟩, ⟨2, 3, ['b']⟩] : List Seg).Chain' fun a b => a.start ≤ b.start) ∧
    (((mergeSegments (7/10) 90 20 [⟨0, 1, ['a']⟩, ⟨2, 3, ['b']⟩]).head?.map Cue.start =
        ([⟨0, 1, ['a']⟩, ⟨2, 3, ['b']⟩] : List Seg).head?.map Seg.start) ∧
      ((mergeSegments (7/10) 90 20 [⟨0, 1, ['a']⟩, ⟨2, 3, ['b']⟩]).getLast?.map Cue.endTime =
        ([⟨0, 1, ['a']⟩, ⟨2, 3, ['b']⟩] : List Seg).getLast?.map Seg.endTime) ∧
      ((([⟨0, 1, ['a']⟩, ⟨2, 3, ['b']⟩] : List Seg).Chain' fun a b => a.endTime ≤ b.start) →
        (mergeSegments (7/10) 90 20 [⟨0, 1, ['a']⟩, ⟨2, 3, ['b']⟩]).Chain'
          fun a b => a.endTime ≤ b.start ∧ a.start ≤ b.start)) := by
  have hch : ([⟨0, 1, ['a']⟩, ⟨2, 3, ['b']⟩] : List Seg).Chain'
      (fun a b => a.start ≤ b.start) := by
    rw [List.chain'_cons]
    exact ⟨by norm_num, List.chain'_singleton _⟩
  exact ⟨List.cons_ne_nil _ _, hch,
    claim9_span_conservation (7/10) 90 20 _ (List.cons_ne_nil _ _) hch⟩

/-! ### Claim C8: the cue construction invariant -/

/-- `" ".join(texts)`. -/
def joinSp : List (List Char) → List Char
  | [] => []
  | [t] => t
  | t :: ts => t ++ ' ' :: joinSp ts

/-- The cue built from a group of consecutive source segments: the first
segment's start, the last segment's end, and the space-join of the
individually stripped texts. -/
def groupCue : List Seg → Cue
  | [] => ⟨0, 0, []⟩
  | s :: rest =>
    ⟨s.start, (((s :: rest).getLast?).getD s).endTime,
      joinSp ((s :: rest).map fun x => pyStrip x.text)⟩

theorem joinSp_cons_cons (a b : List Char) (ts : List (List Char)) :
    joinSp (a :: b :: ts) = a ++ ' ' :: joinSp (b :: ts) := rfl

theorem joinSp_append_singleton (y : List Char) :
    ∀ (a : List Char) (as : List (List Char)),
      joinSp (a :: (as ++ [y])) = joinSp (a :: as) ++ ' ' :: y := by
  intro a as
  induction as generalizing a with
  | nil => rfl
  | cons b as ih =>
    rw [List.cons_append, joinSp_cons_cons, ih b, joinSp_cons_cons, List.append_assoc]
    rfl

/-- Extending a non-empty group by one segment acts on its cue exactly as
the code's merge step. -/
theorem groupCue_snoc (g : List Seg) (hg : g ≠ []) (n : Seg) :
    groupCue (g ++ [n]) =
      ⟨(groupCue g).start, n.endTime, (groupCue g).text ++ ' ' :: pyStrip n.text⟩ := by
  cases g with
  | nil => exact absurd rfl hg
  | cons s g' =>
    have h2 : (s :: (g' ++ [n])).getLast? = some n := by
      rw [← List.cons_append, List.getLast?_concat]
    have h3 : ((s :: (g' ++ [n])).map fun x => pyStrip x.text) =
        pyStrip s.text :: ((g'.map fun x => pyStrip x.text) ++ [pyStrip n.text]) := by
      rw [List.map_cons, List.map_append]
      rfl
    show (⟨s.start, (((s :: (g' ++ [n])).getLast?).getD s).endTime,
        joinSp ((s :: (g' ++ [n])).map fun x => pyStrip x.text)⟩ : Cue) = _
    rw [h2, h3, joinSp_append_singleton]
    rfl

/-- The merge loop partitions the processed segments into consecutive
non-empty groups, one per output cue. -/
theorem mergeGo_partition (maxGap : ℚ) (maxChars minChars : Nat) :
    ∀ (rest : List Seg) (g : List Seg), g ≠ [] →
      ∃ part : List (List Seg), part ≠ [] ∧ (∀ x ∈ part, x ≠ []) ∧
        part.join = g ++ rest ∧
        mergeGo maxGap maxChars minChars (groupCue g) rest = part.map groupCue := by
  intro rest
  induction rest with
  | nil =>
    intro g hg
    exact ⟨[g], List.cons_ne_nil _ _, by simp [hg], by simp, by rw [mergeGo]; rfl⟩
  | cons n rest ih =>
    intro g hg
    rw [mergeGo]
    by_cases hsm : shouldMerge maxGap maxChars minChars (groupCue g)
        (pyStrip n.text) n.start = true
    · rw [if_pos hsm]
      obtain ⟨part, hne, hx, hjoin, heq⟩ := ih (g ++ [n]) (by simp)
      refine ⟨part, hne, hx, by rw [hjoin, List.append_assoc]; rfl, ?_⟩
      rw [← heq, groupCue_snoc g hg n]
    · rw [if_neg hsm]
      obtain ⟨part, hne, hx, hjoin, heq⟩ := ih [n] (List.cons_ne_nil _ _)
      refine ⟨g :: part, List.cons_ne_nil _ _, ?_, ?_, ?_⟩
      · intro x hx'
        rcases List.mem_cons.mp hx' with rfl | hx'
        · exact hg
        · exact hx x hx'
      · rw [show (g :: part).join = g ++ part.join from rfl, hjoin]
        rfl
      · rw [List.map_cons, ← heq]
        rfl

/-! Lemmas about the ends of stripped and joined strings. -/

theorem head?_dropWhile {p : Char → Bool} :
    ∀ {l : List Char} {c : Char}, (l.dropWhile p).head? = some c → p c = false := by
  intro l
  induction l with
  | nil => intro c h; cases h
  | cons a t ih =>
    intro c h
    rw [List.dropWhile_cons] at h
    by_cases ha : p a = true
    · rw [if_pos ha] at h; exact ih h
    · rw [if_neg ha] at h
      cases h
      cases hb : p a with
      | false => rfl
      | true => exact absurd hb ha

theorem getLast?_append_ne {b : List Char} (hb : b ≠ []) :
    ∀ a : List Char, (a ++ b).getLast? = b.getLast? := by
  intro a
  induction a with
  | nil => rfl
  | cons x a ih =>
    rw [List.cons_append]
    cases hab : a ++ b with
    | nil => exact absurd (List.append_eq_nil.mp hab).2 hb
    | cons y t => rw [List.getLast?_cons_cons, ← hab, ih]

/-- The last character of a stripped string is not whitespace. -/
theorem pyStrip_getLast_not {l : List Char} {c : Char}
    (h : (pyStrip l).getLast? = some c) : pyIsSpace c = false := by
  unfold pyStrip at h
  rw [List.getLast?_reverse] at h
  exact head?_dropWhile h

/-- The first character of a stripped string is not whitespace. -/
theorem pyStrip_head_not {l : List Char} {c : Char}
    (h : (pyStrip l).head? = some c) : pyIsSpace c = false := by
  unfold pyStrip at h
  rw [List.head?_reverse] at h
  obtain ⟨t, ht⟩ := List.dropWhile_suffix (l := (l.dropWhile pyIsSpace).reverse) (p := pyIsSpace)
  have hne : (l.dropWhile pyIsSpace).reverse.dropWhile pyIsSpace ≠ [] := by
    intro hnil
    rw [hnil] at h
    cases h
  have hgl : ((l.dropWhile pyIsSpace).reverse).getLast? = some c := by
    rw [← ht, getLast?_append_ne hne t]
    exact h
  rw [List.getLast?_reverse] at hgl
  exact head?_dropWhile hgl

/-- A string whose two ends are not whitespace strips to itself. -/
theorem pyStrip_eq_self {l : List Char}
    (hh : ∀ c, l.head? = some c → pyIsSpace c = false)
    (hl : ∀ c, l.getLast? = some c → pyIsSpace c = false) :
    pyStrip l = l := by
  have hdw : ∀ (m : List Char), (∀ c, m.head? = some c → pyIsSpace c = false) →
      m.dropWhile pyIsSpace = m := by
    intro m hm
    cases m with
    | nil => rfl
    | cons a t => rw [List.dropWhile_cons, if_neg (by rw [hm a rfl]; exact Bool.false_ne_true)]
  unfold pyStrip
  rw [hdw l hh, hdw l.reverse (by intro c hc; rw [List.head?_reverse] at hc; exact hl c hc),
    List.reverse_reverse]

theorem mem_of_getLast?_some {α : Type} :
    ∀ {l : List α} {w : α}, l.getLast? = some w → w ∈ l := by
  intro l
  induction l with
  | nil => intro w h; cases h
  | cons x t ih =>
    intro w h
    cases t with
    | nil =>
      cases h
      exact List.mem_cons_self _ _
    | cons y t' =>
      rw [List.getLast?_cons_cons] at h
      exact List.mem_cons_of_mem _ (ih h)

theorem joinSp_head? :
    ∀ {ts : List (List Char)} {t : List Char}, ts.head? = some t → t ≠ [] →
      (joinSp ts).head? = t.head? := by
  intro ts t hts ht
  cases ts with
  | nil => cases hts
  | cons u ts =>
    cases hts
    cases ts with
    | nil => rfl
    | cons v ts =>
      rw [joinSp_cons_cons]
      cases t with
      | nil => exact absurd rfl ht
      | cons c cs => rfl

theorem joinSp_getLast? :
    ∀ {ts : List (List Char)} {t : List Char}, ts.getLast? = some t → t ≠ [] →
      (joinSp ts).getLast? = t.getLast? := by
  intro ts
  induction ts with
  | nil => intro t hts; cases hts
  | cons u ts ih =>
    intro t hts ht
    cases ts with
    | nil =>
      cases hts
      rfl
    | cons v ts =>
      rw [List.getLast?_cons_cons] at hts
      have hj := ih hts ht
      have hsome : ∃ w, t.getLast? = some w := by
        cases t with
        | nil => exact absurd rfl ht
        | cons c cs =>
          cases hgl : (c :: cs).getLast? with
          | none => simp at hgl
          | some w => exact ⟨w, rfl⟩
      obtain ⟨w, hw⟩ := hsome
      have hjne : joinSp (v :: ts) ≠ [] := by
        intro hnil
        rw [hnil, hw] at hj
        cases hj
      rw [joinSp_cons_cons, getLast?_append_ne (List.cons_ne_nil _ _) u]
      cases hjv : joinSp (v :: ts) with
      | nil => exact absurd hjv hjne
      | cons y t' => rw [List.getLast?_cons_cons, ← hjv, hj]

/-- C8 counterexample: merging `(0,10," ")` and `(1,2,"b")` yields the
single cue `(0, 2, " b")`: its end is not the maximum end of its sources
(10), and its text keeps a leading space, contradicting the claimed trimmed
join. -/
theorem claim8_counterexample :
    mergeSegments (7/10) 90 20 [⟨0, 10, [' ']⟩, ⟨1, 2, ['b']⟩] = [⟨0, 2, [' ', 'b']⟩] ∧
    pyStrip [' ', 'b'] ≠ [' ', 'b'] ∧ ¬((10 : ℚ) ≤ 2) := by
  refine ⟨?_, by decide, by norm_num⟩
  have hs1 : pyStrip [' '] = [] := by decide
  have hs2 : pyStrip ['b'] = ['b'] := by decide
  have h1 : shouldMerge (7/10) 90 20 ⟨0, 10, []⟩ ['b'] 1 = true :=
    (shouldMerge_iff (7/10) 90 20 ⟨0, 10, []⟩ ['b'] 1).mpr
      ⟨by norm_num, by decide, Or.inl (by decide)⟩
  rw [mergeSegments, hs1, mergeGo, hs2, h1, if_pos rfl, mergeGo]
  rfl

/-- C8 (amended). Cue construction invariant: `merge_segments` partitions
its input into consecutive non-empty groups; each cue takes the first
group member's start, the last group member's end, and the plain
single-space join of the individually trimmed member texts (no outer
trim); whenever every source text strips non-empty, no cue text has
leading or trailing whitespace. (Start/end are the first/last member's
values, not the minimum/maximum, and the join is not re-trimmed.) -/
theorem claim8_cue_invariant (maxGap : ℚ) (maxChars minChars : Nat) (segs : List Seg) :
    ∃ part : List (List Seg),
      part.join = segs ∧ (∀ g ∈ part, g ≠ []) ∧
      mergeSegments maxGap maxChars minChars segs = part.map groupCue ∧
      ((∀ s ∈ segs, pyStrip s.text ≠ []) →
        ∀ cue ∈ mergeSegments maxGap maxChars minChars segs, pyStrip cue.text = cue.text) := by
  cases segs with
  | nil => exact ⟨[], rfl, by simp, rfl, by intro _ cue hcue; cases hcue⟩
  | cons s rest =>
    obtain ⟨part, hne, hx, hjoin, heq⟩ :=
      mergeGo_partition maxGap maxChars minChars rest [s] (List.cons_ne_nil _ _)
    have hseg : part.join = s :: rest := by rw [hjoin]; rfl
    have hmerge : mergeSegments maxGap maxChars minChars (s :: rest) = part.map groupCue := by
      rw [mergeSegments, ← heq]
      rfl
    refine ⟨part, hseg, hx, hmerge, ?_⟩
    intro hall cue hcue
    rw [hmerge] at hcue
    obtain ⟨g, hgmem, rfl⟩ := List.mem_map.mp hcue
    have hgne : g ≠ [] := hx g hgmem
    have hmem : ∀ x ∈ g, x ∈ s :: rest := by
      intro x hxg
      rw [← hseg]
      exact List.mem_join.mpr ⟨g, hgmem, hxg⟩
    cases g with
    | nil => exact absurd rfl hgne
    | cons u g' =>
      have htext : (groupCue (u :: g')).text =
          joinSp ((u :: g').map fun x => pyStrip x.text) := rfl
      apply pyStrip_eq_self
      · intro c hc
        rw [htext,
          joinSp_head?
            (show ((u :: g').map fun x => pyStrip x.text).head? = some (pyStrip u.text)
              from rfl)
            (hall u (hmem u (List.mem_cons_self _ _)))] at hc
        exact pyStrip_head_not hc
      · intro c hc
        have hlast : ∃ w, (u :: g').getLast? = some w ∧ w ∈ u :: g' := by
          cases hgl : (u :: g').getLast? with
          | none => simp at hgl
          | some w => exact ⟨w, rfl, mem_of_getLast?_some hgl⟩
        obtain ⟨w, hw, hwmem⟩ := hlast
        have hmap : ((u :: g').map fun x => pyStrip x.text).getLast? =
            some (pyStrip w.text) := by
          rw [List.getLast?_map, hw]
          rfl
        rw [htext, joinSp_getLast? hmap (hall w (hmem w hwmem))] at hc
        exact pyStrip_getLast_not hc

/-! ### SubtitleProcessor.format_timestamp

Python floats are modelled by exact rationals; the code is used on
non-negative times, where `int()` and `//` agree with the mathematical
floor. Where a claim hinges on a decimal float literal, the literal is
replaced by the exact value of the IEEE-754 double it denotes, certified
by a proved half-ulp bound. -/

/-- `int(seconds // 3600)`. -/
def fmtHours (q : ℚ) : Nat := (⌊q / 3600⌋).toNat

/-- Python float `%` for a positive modulus: `x - y * (x // y)`. -/
def pyMod (x y : ℚ) : ℚ := x - y * ((⌊x / y⌋ : ℤ) : ℚ)

/-- `int((seconds % 3600) // 60)`. -/
def fmtMinutes (q : ℚ) : Nat := (⌊pyMod q 3600 / 60⌋).toNat

/-- `int(seconds % 60)`. -/
def fmtSecs (q : ℚ) : Nat := (⌊pyMod q 60⌋).toNat

/-- `int((seconds - int(seconds)) * 1000)`. -/
def fmtMillis (q : ℚ) : Nat := (⌊(q - ((⌊q⌋ : ℤ) : ℚ)) * 1000⌋).toNat

/-- Decimal digits of `n`, most significant first (`str(n)`). -/
def decimalCharsAux : Nat → Nat → List Char
  | 0, _ => []
  | fuel + 1, n =>
    if n < 10 then [Nat.digitChar n]
    else decimalCharsAux fuel (n / 10) ++ [Nat.digitChar (n % 10)]

/-- `str(n)` for a natural number. -/
def decimalChars (n : Nat) : List Char := decimalCharsAux (n + 1) n

/-- Zero-pad on the left to width `w` (Python `{:0wd}` for non-negatives). -/
def padLeft (w : Nat) (s : List Char) : List Char := List.replicate (w - s.length) '0' ++ s

/-- `f"{n:02d}"`. -/
def fmt2 (n : Nat) : List Char := padLeft 2 (decimalChars n)

/-- `f"{n:03d}"`. -/
def fmt3 (n : Nat) : List Char := padLeft 3 (decimalChars n)

/-- `SubtitleProcessor.format_timestamp`. -/
def formatTimestamp (q : ℚ) : List Char :=
  fmt2 (fmtHours q) ++ ':' ::
    (fmt2 (fmtMinutes q) ++ ':' :: (fmt2 (fmtSecs q) ++ ',' :: fmt3 (fmtMillis q)))

theorem decimalCharsAux_small {fuel m : Nat} (hf : 0 < fuel) (hm : m < 10) :
    decimalCharsAux fuel m = [Nat.digitChar m] := by
  cases fuel with
  | zero => omega
  | succ f => rw [decimalCharsAux, if_pos hm]

theorem decimalCharsAux_mid {fuel m : Nat} (hf : 2 ≤ fuel) (h10 : 10 ≤ m) (hm : m < 100) :
    decimalCharsAux fuel m = [Nat.digitChar (m / 10), Nat.digitChar (m % 10)] := by
  cases fuel with
  | zero => omega
  | succ f =>
    rw [decimalCharsAux, if_neg (by omega),
      decimalCharsAux_small (by omega) (by omega)]
    rfl

theorem decimalChars_small {n : Nat} (hn : n < 10) : decimalChars n = [Nat.digitChar n] :=
  decimalCharsAux_small (Nat.succ_pos n) hn

theorem decimalChars_mid {n : Nat} (h10 : 10 ≤ n) (hn : n < 100) :
    decimalChars n = [Nat.digitChar (n / 10), Nat.digitChar (n % 10)] :=
  decimalCharsAux_mid (by omega) h10 hn

theorem decimalChars_big_len {n : Nat} (h : 100 ≤ n) (hn : n < 1000) :
    (decimalChars n).length = 3 := by
  unfold decimalChars
  cases n with
  | zero => omega
  | succ m =>
    rw [decimalCharsAux, if_neg (by omega),
      decimalCharsAux_mid (by omega) (by omega) (by omega)]
    rfl

theorem fmt2_length {n : Nat} (hn : n < 100) : (fmt2 n).length = 2 := by
  unfold fmt2 padLeft
  by_cases h : n < 10
  · rw [decimalChars_small h]
    rfl
  · rw [decimalChars_mid (by omega) hn]
    rfl

theorem fmt3_length {n : Nat} (hn : n < 1000) : (fmt3 n).length = 3 := by
  unfold fmt3 padLeft
  by_cases h : n < 10
  · rw [decimalChars_small h]
    rfl
  · by_cases h2 : n < 100
    · rw [decimalChars_mid (by omega) h2]
      rfl
    · rw [List.length_append, decimalChars_big_len (by omega) hn, List.length_replicate]

theorem digitChar_isDigit {m : Nat} (hm : m < 10) : (Nat.digitChar m).isDigit = true := by
  interval_cases m <;> decide

theorem fmt2_digits {n : Nat} (hn : n < 100) : ∀ c ∈ fmt2 n, c.isDigit = true := by
  intro c hc
  unfold fmt2 padLeft at hc
  rcases List.mem_append.mp hc with hc | hc
  · rw [List.eq_of_mem_replicate hc]
    decide
  · by_cases h : n < 10
    · rw [decimalChars_small h] at hc
      rcases List.mem_singleton.mp hc with rfl
      exact digitChar_isDigit h
    · rw [decimalChars_mid (by omega) hn] at hc
      rcases List.mem_cons.mp hc with rfl | hc
      · exact digitChar_isDigit (by omega)
      · rcases List.mem_singleton.mp hc with rfl
        exact digitChar_isDigit (by omega)

theorem fmt3_digits {n : Nat} (hn : n < 1000) : ∀ c ∈ fmt3 n, c.isDigit = true := by
  intro c hc
  unfold fmt3 padLeft at hc
  rcases List.mem_append.mp hc with hc | hc
  · rw [List.eq_of_mem_replicate hc]
    decide
  · by_cases h : n < 10
    · rw [decimalChars_small h] at hc
      rcases List.mem_singleton.mp hc with rfl
      exact digitChar_isDigit h
    · by_cases h2 : n < 100
      · rw [decimalChars_mid (by omega) h2] at hc
        rcases List.mem_cons.mp hc with rfl | hc
        · exact digitChar_isDigit (by omega)
        · rcases List.mem_singleton.mp hc with rfl
          exact digitChar_isDigit (by omega)
      · unfold decimalChars at hc
        cases n with
        | zero => omega
        | succ m =>
          rw [decimalCharsAux, if_neg (by omega),
            decimalCharsAux_mid (by omega) (by omega) (by omega)] at hc
          rcases List.mem_append.mp hc with hc | hc
          · rcases List.mem_cons.mp hc with rfl | hc
            · exact digitChar_isDigit (by omega)
            · rcases List.mem_singleton.mp hc with rfl
              exact digitChar_isDigit (by omega)
          · rcases List.mem_singleton.mp hc with rfl
            exact digitChar_isDigit (by omega)

/-- Dividing by `s` then flooring equals flooring `1000 q` then dividing by
`1000 s`. -/
theorem floor_div_thousand (q : ℚ) (hq : 0 ≤ q) (s : Nat) (hs : 0 < s) :
    ⌊q / (s : ℚ)⌋ = ⌊1000 * q⌋ / (1000 * (s : ℤ)) := by
  have h1 : q / (s : ℚ) = 1000 * q / ((1000 * s : ℕ) : ℚ) := by
    have hs' : ((s : ℚ)) ≠ 0 := by positivity
    push_cast
    field_simp
    ring
  have h2 : (0:ℚ) ≤ 1000 * q / ((1000 * s : ℕ) : ℚ) := by positivity
  have h3 : (0:ℚ) ≤ 1000 * q := by linarith
  rw [h1, ← Int.natCast_floor_eq_floor h2, Nat.floor_div_nat, ← Int.natCast_floor_eq_floor h3,
    Int.ofNat_div]
  congr 1

theorem floor_minutes_eq (q : ℚ) :
    ⌊pyMod q 3600 / 60⌋ = ⌊q / 60⌋ - 60 * ⌊q / 3600⌋ := by
  have h : pyMod q 3600 / 60 = q / 60 - ((60 * ⌊q / 3600⌋ : ℤ) : ℚ) := by
    unfold pyMod
    push_cast
    ring
  rw [h, Int.floor_sub_int]

theorem floor_secs_eq (q : ℚ) : ⌊pyMod q 60⌋ = ⌊q⌋ - 60 * ⌊q / 60⌋ := by
  have h : pyMod q 60 = q - ((60 * ⌊q / 60⌋ : ℤ) : ℚ) := by
    unfold pyMod
    push_cast
    ring
  rw [h, Int.floor_sub_int]

theorem floor_millis_eq (q : ℚ) :
    ⌊(q - ((⌊q⌋ : ℤ) : ℚ)) * 1000⌋ = ⌊1000 * q⌋ - 1000 * ⌊q⌋ := by
  have h : (q - ((⌊q⌋ : ℤ) : ℚ)) * 1000 = 1000 * q - ((1000 * ⌊q⌋ : ℤ) : ℚ) := by
    push_cast
    ring
  rw [h, Int.floor_sub_int]

/-- The four rendered components, in terms of `T = ⌊1000 q⌋`. -/
theorem fmt_components (q : ℚ) (hq : 0 ≤ q) :
    fmtHours q = (⌊1000 * q⌋).toNat / 3600000 ∧
    fmtMinutes q = (⌊1000 * q⌋).toNat / 60000 % 60 ∧
    fmtSecs q = (⌊1000 * q⌋).toNat / 1000 % 60 ∧
    fmtMillis q = (⌊1000 * q⌋).toNat % 1000 := by
  have hT : (0:ℤ) ≤ ⌊1000 * q⌋ := Int.floor_nonneg.mpr (by linarith)
  have h3600 : ⌊q / 3600⌋ = ⌊1000 * q⌋ / 3600000 := by
    have h := floor_div_thousand q hq 3600 (by omega)
    rw [show ((3600:ℕ) : ℚ) = 3600 by norm_num] at h
    rw [h]
    norm_num
  have h60 : ⌊q / 60⌋ = ⌊1000 * q⌋ / 60000 := by
    have h := floor_div_thousand q hq 60 (by omega)
    rw [show ((60:ℕ) : ℚ) = 60 by norm_num] at h
    rw [h]
    norm_num
  have h1 : ⌊q⌋ = ⌊1000 * q⌋ / 1000 := by
    have h := floor_div_thousand q hq 1 (by omega)
    rw [show ((1:ℕ) : ℚ) = 1 by norm_num, div_one] at h
    rw [h]
    norm_num
  refine ⟨?_, ?_, ?_, ?_⟩
  · unfold fmtHours
    rw [h3600]
    omega
  · unfold fmtMinutes
    rw [floor_minutes_eq, h60, h3600]
    omega
  · unfold fmtSecs
    rw [floor_secs_eq, h1, h60]
    omega
  · unfold fmtMillis
    rw [floor_millis_eq, h1]
    omega

/-- C4 counterexample: the IEEE-754 double denoted by the literal
`3661.234` is `8051138710017671 / 2 ^ 41` (a dyadic rational within half an
ulp, `2 ^ -42`, of the decimal value, as the first conjunct certifies), and
`format_timestamp` truncates it to `"01:01:01,233"`, not the claimed
`"01:01:01,234"`. -/
theorem claim4_counterexample :
    |(8051138710017671 / 2199023255552 : ℚ) - 3661.234| < 1 / 2 ^ 42 ∧
    formatTimestamp (8051138710017671 / 2199023255552) ≠ "01:01:01,234".data := by
  constructor
  · rw [show (3661.234 : ℚ) = 3661234 / 1000 by norm_num]
    rw [abs_of_nonpos (by norm_num)]
    norm_num
  · have hH : fmtHours (8051138710017671 / 2199023255552) = 1 := by
      unfold fmtHours
      rw [show ⌊(8051138710017671 / 2199023255552 : ℚ) / 3600⌋ = 1 by
        rw [Int.floor_eq_iff]; norm_num]
      rfl
    have hM : fmtMinutes (8051138710017671 / 2199023255552) = 1 := by
      unfold fmtMinutes pyMod
      rw [show ⌊(8051138710017671 / 2199023255552 : ℚ) / 3600⌋ = 1 by
        rw [Int.floor_eq_iff]; norm_num]
      rw [show ⌊((8051138710017671 / 2199023255552 : ℚ) - 3600 * ((1:ℤ):ℚ)) / 60⌋ = 1 by
        rw [Int.floor_eq_iff]; norm_num]
      rfl
    have hS : fmtSecs (8051138710017671 / 2199023255552) = 1 := by
      unfold fmtSecs pyMod
      rw [show ⌊(8051138710017671 / 2199023255552 : ℚ) / 60⌋ = 61 by
        rw [Int.floor_eq_iff]; norm_num]
      rw [show ⌊(8051138710017671 / 2199023255552 : ℚ) - 60 * ((61:ℤ):ℚ)⌋ = 1 by
        rw [Int.floor_eq_iff]; norm_num]
      rfl
    have hMS : fmtMillis (8051138710017671 / 2199023255552) = 233 := by
      unfold fmtMillis
      rw [show ⌊(8051138710017671 / 2199023255552 : ℚ)⌋ = 3661 by
        rw [Int.floor_eq_iff]; norm_num]
      rw [show ⌊((8051138710017671 / 2199023255552 : ℚ) - ((3661:ℤ):ℚ)) * 1000⌋ = 233 by
        rw [Int.floor_eq_iff]; norm_num]
      rfl
    unfold formatTimestamp
    rw [hH, hM, hS, hMS]
    decide

/-- C4 (amended). Timestamp codec truncation: for every non-negative
rational-valued time, the output is `HH:MM:SS,mmm` determined by
`T = ⌊1000 q⌋`: hours `T / 3600000` (unbounded), minutes `T / 60000 % 60`
and seconds `T / 1000 % 60` zero-padded to 2 digits, milliseconds
`T % 1000` zero-padded to 3 digits — truncation, not rounding.
`format_timestamp(0.0) = "00:00:00,000"`; on the doubles denoted by the
literals `59.9999` and `3661.234` (each certified within half an ulp) it
yields `"00:00:59,999"` and `"01:01:01,233"` — the latter, not `",234"`,
because the double sits just below the decimal value. -/
theorem claim4_timestamp_truncation :
    (∀ q : ℚ, 0 ≤ q →
      formatTimestamp q =
        fmt2 ((⌊1000 * q⌋).toNat / 3600000) ++ ':' ::
          (fmt2 ((⌊1000 * q⌋).toNat / 60000 % 60) ++ ':' ::
            (fmt2 ((⌊1000 * q⌋).toNat / 1000 % 60) ++ ',' ::
              fmt3 ((⌊1000 * q⌋).toNat % 1000))) ∧
      (fmt2 ((⌊1000 * q⌋).toNat / 60000 % 60)).length = 2 ∧
      (fmt2 ((⌊1000 * q⌋).toNat / 1000 % 60)).length = 2 ∧
      (fmt3 ((⌊1000 * q⌋).toNat % 1000)).length = 3) ∧
    formatTimestamp 0 = "00:00:00,000".data ∧
    (|(2111058806892711 / 35184372088832 : ℚ) - 59.9999| < 1 / 2 ^ 48 ∧
      formatTimestamp (2111058806892711 / 35184372088832) = "00:00:59,999".data) ∧
    (|(8051138710017671 / 2199023255552 : ℚ) - 3661.234| < 1 / 2 ^ 42 ∧
      formatTimestamp (8051138710017671 / 2199023255552) = "01:01:01,233".data) := by
  refine ⟨?_, ?_, ⟨?_, ?_⟩, ⟨?_, ?_⟩⟩
  · intro q hq
    obtain ⟨hH, hM, hS, hMS⟩ := fmt_components q hq
    refine ⟨?_, ?_, ?_, ?_⟩
    · unfold formatTimestamp
      rw [hH, hM, hS, hMS]
    · exact fmt2_length (by omega)
    · exact fmt2_length (by omega)
    · exact fmt3_length (by omega)
  · have h0 : ∀ y : ℚ, (0:ℚ) / y = 0 := fun y => zero_div y
    unfold formatTimestamp fmtHours fmtMinutes fmtSecs fmtMillis pyMod
    norm_num
    decide
  · rw [show (59.9999 : ℚ) = 599999 / 10000 by norm_num]
    rw [abs_of_nonpos (by norm_num)]
    norm_num
  · have hH : fmtHours (2111058806892711 / 35184372088832) = 0 := by
      unfold fmtHours
      rw [show ⌊(2111058806892711 / 35184372088832 : ℚ) / 3600⌋ = 0 by
        rw [Int.floor_eq_iff]; norm_num]
      rfl
    have hM : fmtMinutes (2111058806892711 / 35184372088832) = 0 := by
      unfold fmtMinutes pyMod
      rw [show ⌊(2111058806892711 / 35184372088832 : ℚ) / 3600⌋ = 0 by
        rw [Int.floor_eq_iff]; norm_num]
      rw [show ⌊((2111058806892711 / 35184372088832 : ℚ) - 3600 * ((0:ℤ):ℚ)) / 60⌋ = 0 by
        rw [Int.floor_eq_iff]; norm_num]
      rfl
    have hS : fmtSecs (2111058806892711 / 35184372088832) = 59 := by
      unfold fmtSecs pyMod
      rw [show ⌊(2111058806892711 / 35184372088832 : ℚ) / 60⌋ = 0 by
        rw [Int.floor_eq_iff]; norm_num]
      rw [show ⌊(2111058806892711 / 35184372088832 : ℚ) - 60 * ((0:ℤ):ℚ)⌋ = 59 by
        rw [Int.floor_eq_iff]; norm_num]
      rfl
    have hMS : fmtMillis (2111058806892711 / 35184372088832) = 999 := by
      unfold fmtMillis
      rw [show ⌊(2111058806892711 / 35184372088832 : ℚ)⌋ = 59 by
        rw [Int.floor_eq_iff]; norm_num]
      rw [show ⌊((2111058806892711 / 35184372088832 : ℚ) - ((59:ℤ):ℚ)) * 1000⌋ = 999 by
        rw [Int.floor_eq_iff]; norm_num]
      rfl
    unfold formatTimestamp
    rw [hH, hM, hS, hMS]
    decide
  · rw [show (3661.234 : ℚ) = 3661234 / 1000 by norm_num]
    rw [abs_of_nonpos (by norm_num)]
    norm_num
  · have hH : fmtHours (8051138710017671 / 2199023255552) = 1 := by
      unfold fmtHours
      rw [show ⌊(8051138710017671 / 2199023255552 : ℚ) / 3600⌋ = 1 by
        rw [Int.floor_eq_iff]; norm_num]
      rfl
    have hM : fmtMinutes (8051138710017671 / 2199023255552) = 1 := by
      unfold fmtMinutes pyMod
      rw [show ⌊(8051138710017671 / 2199023255552 : ℚ) / 3600⌋ = 1 by
        rw [Int.floor_eq_iff]; norm_num]
      rw [show ⌊((8051138710017671 / 2199023255552 : ℚ) - 3600 * ((1:ℤ):ℚ)) / 60⌋ = 1 by
        rw [Int.floor_eq_iff]; norm_num]
      rfl
    have hS : fmtSecs (8051138710017671 / 2199023255552) = 1 := by
      unfold fmtSecs pyMod
      rw [show ⌊(8051138710017671 / 2199023255552 : ℚ) / 60⌋ = 61 by
        rw [Int.floor_eq_iff]; norm_num]
      rw [show ⌊(8051138710017671 / 2199023255552 : ℚ) - 60 * ((61:ℤ):ℚ)⌋ = 1 by
        rw [Int.floor_eq_iff]; norm_num]
      rfl
    have hMS : fmtMillis (8051138710017671 / 2199023255552) = 233 := by
      unfold fmtMillis
      rw [show ⌊(8051138710017671 / 2199023255552 : ℚ)⌋ = 3661 by
        rw [Int.floor_eq_iff]; norm_num]
      rw [show ⌊((8051138710017671 / 2199023255552 : ℚ) - ((3661:ℤ):ℚ)) * 1000⌋ = 233 by
        rw [Int.floor_eq_iff]; norm_num]
      rfl
    unfold formatTimestamp
    rw [hH, hM, hS, hMS]
    decide

/-- Witness for C4 at a concrete non-negative time. -/
theorem claim4_timestamp_truncation_witness :
    (0:ℚ) ≤ 5 ∧
    (formatTimestamp 5 =
        fmt2 ((⌊1000 * (5:ℚ)⌋).toNat / 3600000) ++ ':' ::
          (fmt2 ((⌊1000 * (5:ℚ)⌋).toNat / 60000 % 60) ++ ':' ::
            (fmt2 ((⌊1000 * (5:ℚ)⌋).toNat / 1000 % 60) ++ ',' ::
              fmt3 ((⌊1000 * (5:ℚ)⌋).toNat % 1000))) ∧
      (fmt2 ((⌊1000 * (5:ℚ)⌋).toNat / 60000 % 60)).length = 2 ∧
      (fmt2 ((⌊1000 * (5:ℚ)⌋).toNat / 1000 % 60)).length = 2 ∧
      (fmt3 ((⌊1000 * (5:ℚ)⌋).toNat % 1000)).length = 3) :=
  ⟨by norm_num, claim4_timestamp_truncation.1 5 (by norm_num)⟩

/-- Witness for C8 at a concrete input whose texts all strip non-empty. -/
theorem claim8_cue_invariant_witness :
    ∃ part : List (List Seg),
      part.join = [⟨0, 1, ['a']⟩, ⟨2, 3, ['b']⟩] ∧ (∀ g ∈ part, g ≠ []) ∧
      mergeSegments (7/10) 90 20 [⟨0, 1, ['a']⟩, ⟨2, 3, ['b']⟩] = part.map groupCue ∧
      ((∀ s ∈ ([⟨0, 1, ['a']⟩, ⟨2, 3, ['b']⟩] : List Seg), pyStrip s.text ≠ []) →
        ∀ cue ∈ mergeSegments (7/10) 90 20 [⟨0, 1, ['a']⟩, ⟨2, 3, ['b']⟩],
          pyStrip cue.text = cue.text) :=
  claim8_cue_invariant (7/10) 90 20 [⟨0, 1, ['a']⟩, ⟨2, 3, ['b']⟩]

/-! ### The chunked translation pipeline

`translate_subtitle_file_by_chunk`, as a pure content transformation: file
I/O, logging and the retry delay are not modelled; the LLM provider is an
oracle `resp : Nat → Nat → List Char` giving the response of the given
attempt for the given chunk counter. -/

/-- The accumulate-and-flush chunking loop: append each match to the
current chunk and flush the chunk once it reaches `chunk_size`; any
remainder forms a final shorter chunk. -/
def chunkLoop (k : Nat) : List RMatch → List RMatch → List (List RMatch)
  | acc, [] => if acc.isEmpty then [] else [acc]
  | acc, m :: ms =>
    if k ≤ (acc ++ [m]).length then (acc ++ [m]) :: chunkLoop k [] ms
    else chunkLoop k (acc ++ [m]) ms

/-- Grouping of the match list into chunks of `chunk_size`. -/
def chunksOf (k : Nat) (l : List RMatch) : List (List RMatch) := chunkLoop k [] l

/-- `matches_in_chunk[0].start()`. -/
def chunkStart (ch : List RMatch) : Nat :=
  match ch with
  | [] => 0
  | m :: _ => m.ms

/-- `matches_in_chunk[-1].end()`. -/
def chunkEnd (ch : List RMatch) : Nat := ((ch.getLast?).map RMatch.me).getD 0

/-- The blocks of a chunk, for validation. -/
def chunkBlocks (content : List Char) (ch : List RMatch) : List Block :=
  ch.map (blockOf content)

/-- `any(match.group(3).strip() for match in matches_in_chunk)`. -/
def hasText (content : List Char) (ch : List RMatch) : Bool :=
  ch.any fun m => !(pyStrip (sub content m.g3.1 m.g3.2)).isEmpty

/-- The retry loop: try attempts `attempt, attempt+1, …` while fuel lasts;
returns the first stripped response passing validation (with the number of
provider calls made), or `none` after exhausting the fuel. -/
def runAttempts (respOf : Nat → List Char) (blocks : List Block) :
    Nat → Nat → Option (List Char) × Nat
  | attempt, 0 => (none, attempt)
  | attempt, fuel + 1 =>
    if isValidResponse (pyStrip (respOf attempt)) blocks then
      (some (pyStrip (respOf attempt)), attempt + 1)
    else runAttempts respOf blocks (attempt + 1) fuel

/-- The final content contributed by one chunk together with the number of
provider invocations: the original chunk text with zero calls when there
is nothing to translate, the accepted response on success, the original
chunk text after `max_retries + 1` failed attempts. -/
def chunkResult (content : List Char) (ch : List RMatch) (respOf : Nat → List Char)
    (maxR : Nat) : List Char × Nat :=
  if hasText content ch then
    match runAttempts respOf (chunkBlocks content ch) 0 (maxR + 1) with
    | (some r, n) => (r, n)
    | (none, n) => (sub content (chunkStart ch) (chunkEnd ch), n)
  else (sub content (chunkStart ch) (chunkEnd ch), 0)

/-- Process the chunks in order, threading `last_match_end`: returns the
appended pieces (each the verbatim gap before the chunk followed by the
chunk's final content), the final `last_match_end`, and the per-chunk call
counts. -/
def runChunks (content : List Char) (resp : Nat → Nat → List Char) (maxR : Nat) :
    Nat → Nat → List (List RMatch) → List (List Char) × Nat × List Nat
  | lastEnd, _, [] => ([], lastEnd, [])
  | lastEnd, idx, ch :: chs =>
    ((sub content lastEnd (chunkStart ch) ++ (chunkResult content ch (resp idx) maxR).1) ::
        (runChunks content resp maxR (chunkEnd ch) (idx + 1) chs).1,
      (runChunks content resp maxR (chunkEnd ch) (idx + 1) chs).2.1,
      (chunkResult content ch (resp idx) maxR).2 ::
        (runChunks content resp maxR (chunkEnd ch) (idx + 1) chs).2.2)

/-- `if final_output and not final_output.endswith("\n"): final_output += "\n"`. -/
def normEnd (f : List Char) : List Char :=
  if f ≠ [] ∧ f.getLast? ≠ some '\n' then f ++ ['\n'] else f

/-- The final document produced by `translate_subtitle_file_by_chunk`. -/
def translateContent (content : List Char) (resp : Nat → Nat → List Char)
    (chunkSize maxR : Nat) : List Char :=
  match finditer content with
  | [] => normEnd content
  | m0 :: ms =>
    normEnd ((if pyStrip (sub content 0 m0.ms) ≠ [] then sub content 0 m0.ms else []) ++
      (runChunks content resp maxR m0.ms 0 (chunksOf chunkSize (m0 :: ms))).1.join ++
      sub content (runChunks content resp maxR m0.ms 0 (chunksOf chunkSize (m0 :: ms))).2.1
        content.length)

/-- The verbatim inter-chunk gaps: for each chunk, the substring from the
previous chunk's end (initially the first match's start) to its start. -/
def chunkGaps (content : List Char) : Nat → List (List RMatch) → List (List Char)
  | _, [] => []
  | le, ch :: chs => sub content le (chunkStart ch) :: chunkGaps content (chunkEnd ch) chs

/-! Structure of `runChunks`. -/

theorem runChunks_pieces (content : List Char) (resp : Nat → Nat → List Char) (maxR : Nat) :
    ∀ (chs : List (List RMatch)) (le idx : Nat),
      (runChunks content resp maxR le idx chs).1 =
        List.zipWith (fun g p => g ++ (chunkResult content p.2 (resp p.1) maxR).1)
          (chunkGaps content le chs) (chs.enumFrom idx) := by
  intro chs
  induction chs with
  | nil => intro le idx; rfl
  | cons ch chs ih =>
    intro le idx
    rw [runChunks, chunkGaps, List.enumFrom, List.zipWith, ih]

theorem runChunks_calls (content : List Char) (resp : Nat → Nat → List Char) (maxR : Nat) :
    ∀ (chs : List (List RMatch)) (le idx : Nat),
      (runChunks content resp maxR le idx chs).2.2 =
        (chs.enumFrom idx).map fun p => (chunkResult content p.2 (resp p.1) maxR).2 := by
  intro chs
  induction chs with
  | nil => intro le idx; rfl
  | cons ch chs ih =>
    intro le idx
    rw [runChunks, List.enumFrom, List.map, ih]

theorem runChunks_lastEnd (content : List Char) (resp : Nat → Nat → List Char) (maxR : Nat) :
    ∀ (chs : List (List RMatch)) (le idx : Nat),
      (runChunks content resp maxR le idx chs).2.1 =
        ((chs.getLast?.map chunkEnd).getD le) := by
  intro chs
  induction chs with
  | nil => intro le idx; rfl
  | cons ch chs ih =>
    intro le idx
    rw [runChunks, ih]
    cases chs with
    | nil => rfl
    | cons ch2 chs2 =>
      rw [List.getLast?_cons_cons]
      cases hgl : (ch2 :: chs2).getLast? with
      | none => simp at hgl
      | some x => rfl

/-! Ordering and bounds of the matches returned by the scanner. -/

theorem g3EndAt_elim {c : List Char} {e f : Nat} (h : g3EndAt c e = some f) :
    e < f ∧ f ≤ c.length := by
  obtain ⟨j, hj, hw⟩ := findSome?_eq_some_ex h
  split at hw
  case isFalse => cases hw
  case isTrue =>
    cases hw
    have := List.mem_range.mp hj
    omega

theorem matchAt_struct {c : List Char} {p : Nat} {m : RMatch}
    (h : matchAt c p = some m) :
    m.ms = p ∧ p ≤ m.g2.1 ∧ m.me = m.g3.2 := by
  rcases matchAt_cases h with h1 | ⟨-, h2⟩
  · unfold matchAtG1 at h1
    split at h1
    case isTrue => cases h1
    case isFalse =>
      obtain ⟨w, -, hw⟩ := findSome?_eq_some_ex h1
      split at hw
      case isFalse => cases hw
      case isTrue =>
        cases hq : matchFromQ c (p + digitRunAt c p + w + 1) with
        | none => rw [hq] at hw; cases hw
        | some ef =>
          rw [hq] at hw
          cases hw
          exact ⟨rfl, show p ≤ p + digitRunAt c p + w + 1 by omega, rfl⟩
  · unfold matchAtNoG1 at h2
    cases hq : matchFromQ c p with
    | none => rw [hq] at h2; cases h2
    | some ef => rw [hq] at h2; cases h2; exact ⟨rfl, le_refl p, rfl⟩

theorem matchAt_bounds {c : List Char} {p : Nat} {m : RMatch}
    (h : matchAt c p = some m) : p < m.me ∧ m.me ≤ c.length := by
  obtain ⟨hms, hle, hme⟩ := matchAt_struct h
  obtain ⟨hbol, t, hts, hg2, hg3⟩ := matchFromQ_elim (matchAt_g2 h)
  obtain ⟨hcore, hle2⟩ := tsLineAt_elim hts
  obtain ⟨h1, h2, -⟩ := g2EndAt_elim hg2
  obtain ⟨h3, h4⟩ := g3EndAt_elim hg3
  omega

theorem scanAux_ms_ge (c : List Char) :
    ∀ (fuel p : Nat) (m : RMatch), m ∈ scanAux c fuel p → p ≤ m.ms := by
  intro fuel
  induction fuel with
  | zero => intro p m h; cases h
  | succ n ih =>
    intro p m h
    rw [scanAux] at h
    split at h
    · cases h
    · split at h
      case h_1 m' hm' =>
        rcases List.mem_cons.mp h with rfl | hmem
        · exact le_of_eq (matchAt_struct hm').1.symm
        · have h2 := ih _ _ hmem
          have h3 : p + 1 ≤ max m'.me (p + 1) := le_max_right _ _
          omega
      case h_2 =>
        have := ih _ _ h
        omega

theorem scanAux_chain (c : List Char) :
    ∀ (fuel p : Nat), (scanAux c fuel p).Chain' fun a b => a.me ≤ b.ms := by
  intro fuel
  induction fuel with
  | zero => intro p; exact List.chain'_nil
  | succ n ih =>
    intro p
    rw [scanAux]
    split
    · exact List.chain'_nil
    · split
      case h_1 m' hm' =>
        rw [List.chain'_cons']
        refine ⟨?_, ih _⟩
        intro b hb
        have hmem := List.mem_of_mem_head? hb
        have h2 := scanAux_ms_ge c _ _ _ hmem
        have h3 : m'.me ≤ max m'.me (p + 1) := le_max_left _ _
        omega
      case h_2 => exact ih _

theorem finditer_mem_bounds {c : List Char} {m : RMatch} (hm : m ∈ finditer c) :
    m.ms < m.me ∧ m.me ≤ c.length := by
  obtain ⟨q, hq⟩ := mem_scanAux hm
  have h1 := matchAt_bounds hq
  have h2 := (matchAt_struct hq).1
  omega

theorem finditer_chain (c : List Char) :
    (finditer c).Chain' fun a b => a.me ≤ b.ms := scanAux_chain c _ _

/-! Chunk structure. -/

theorem chunkLoop_join (k : Nat) :
    ∀ (l acc : List RMatch), (chunkLoop k acc l).join = acc ++ l := by
  intro l
  induction l with
  | nil =>
    intro acc
    rw [chunkLoop]
    by_cases h : acc.isEmpty
    · rw [if_pos h, List.isEmpty_iff.mp h]
      rfl
    · rw [if_neg h]
      simp
  | cons m ms ih =>
    intro acc
    rw [chunkLoop]
    by_cases h : k ≤ (acc ++ [m]).length
    · rw [if_pos h, show ((acc ++ [m]) :: chunkLoop k [] ms).join =
        (acc ++ [m]) ++ (chunkLoop k [] ms).join from rfl, ih]
      simp
    · rw [if_neg h, ih]
      simp

theorem chunksOf_join (k : Nat) (l : List RMatch) : (chunksOf k l).join = l := by
  rw [chunksOf, chunkLoop_join]
  rfl

theorem chunkLoop_ne_nil (k : Nat) :
    ∀ (l acc : List RMatch), ∀ g ∈ chunkLoop k acc l, g ≠ [] := by
  intro l
  induction l with
  | nil =>
    intro acc g hg
    rw [chunkLoop] at hg
    split at hg
    case isTrue => cases hg
    case isFalse h =>
      rcases List.mem_singleton.mp hg with rfl
      intro hnil
      rw [hnil] at h
      exact h rfl
  | cons m ms ih =>
    intro acc g hg
    rw [chunkLoop] at hg
    split at hg
    case isTrue =>
      rcases List.mem_cons.mp hg with rfl | hg
      · simp
      · exact ih [] g hg
    case isFalse => exact ih (acc ++ [m]) g hg

theorem chunksOf_ne_nil (k : Nat) (l : List RMatch) : ∀ g ∈ chunksOf k l, g ≠ [] :=
  chunkLoop_ne_nil k l []

/-- A non-empty, ordered chunk of in-bounds matches spans a non-empty
in-bounds substring. -/
theorem chunk_bounds {c : List Char} :
    ∀ (ch : List RMatch), ch ≠ [] →
      (ch.Chain' fun a b => a.me ≤ b.ms) →
      (∀ m ∈ ch, m.ms < m.me ∧ m.me ≤ c.length) →
      chunkStart ch < chunkEnd ch ∧ chunkEnd ch ≤ c.length := by
  intro ch
  induction ch with
  | nil => intro h; exact absurd rfl h
  | cons m rest ih =>
    intro _ hchain hmem
    cases rest with
    | nil =>
      have := hmem m (List.mem_cons_self _ _)
      exact ⟨by unfold chunkStart chunkEnd; simpa using this.1,
        by unfold chunkEnd; simpa using this.2⟩
    | cons r rs =>
      rcases List.chain'_cons'.mp hchain with ⟨hhead, htail⟩
      obtain ⟨ih1, ih2⟩ := ih (List.cons_ne_nil _ _) htail
        (fun x hx => hmem x (List.mem_cons_of_mem _ hx))
      have hm := hmem m (List.mem_cons_self _ _)
      have hr := hhead r rfl
      have hstart : chunkStart (r :: rs) = r.ms := rfl
      have hce : chunkEnd (m :: r :: rs) = chunkEnd (r :: rs) := by
        unfold chunkEnd
        rw [List.getLast?_cons_cons]
      refine ⟨?_, by rw [hce]; exact ih2⟩
      rw [hce]
      have : chunkStart (m :: r :: rs) = m.ms := rfl
      omega

/-- An accepted response is never empty when the chunk has blocks. -/
theorem valid_response_ne_nil {r : List Char} {bs : List Block}
    (hb : bs ≠ []) (h : isValidResponse r bs = true) : r ≠ [] := by
  intro hr
  subst hr
  unfold isValidResponse at h
  rw [if_neg (by simp [hb]), if_pos (Or.inr rfl)] at h
  cases h

/-- A successful retry loop returns a validated response. -/
theorem runAttempts_some_valid {respOf : Nat → List Char} {blocks : List Block} :
    ∀ {fuel attempt : Nat} {r : List Char} {n : Nat},
      runAttempts respOf blocks attempt fuel = (some r, n) →
      isValidResponse r blocks = true := by
  intro fuel
  induction fuel with
  | zero => intro attempt r n h; cases h
  | succ f ih =>
    intro attempt r n h
    rw [runAttempts] at h
    split at h
    case isTrue hv => cases h; exact hv
    case isFalse => exact ih h

theorem sub_ne_nil {c : List Char} {a b : Nat} (h1 : a < b) (h2 : a < c.length) :
    sub c a b ≠ [] := by
  have hlen : (sub c a b).length = min (b - a) (c.length - a) := by
    unfold sub
    rw [List.length_take, List.length_drop]
  intro hc
  rw [hc] at hlen
  simp at hlen
  omega

/-- A chunk of ordered, in-bounds matches always contributes non-empty
content. -/
theorem chunkResult_ne_nil {content : List Char} {ch : List RMatch}
    {respOf : Nat → List Char} {maxR : Nat} (hne : ch ≠ [])
    (hchain : ch.Chain' fun a b => a.me ≤ b.ms)
    (hmem : ∀ m ∈ ch, m.ms < m.me ∧ m.me ≤ content.length) :
    (chunkResult content ch respOf maxR).1 ≠ [] := by
  obtain ⟨hlt, hle⟩ := chunk_bounds ch hne hchain hmem
  have horig : sub content (chunkStart ch) (chunkEnd ch) ≠ [] :=
    sub_ne_nil hlt (by omega)
  have hbs : chunkBlocks content ch ≠ [] := by
    cases ch with
    | nil => exact absurd rfl hne
    | cons m rest => simp [chunkBlocks]
  unfold chunkResult
  split
  · cases hra : runAttempts respOf (chunkBlocks content ch) 0 (maxR + 1) with
    | mk o n =>
      cases o with
      | some r =>
        have := runAttempts_some_valid hra
        exact valid_response_ne_nil hbs this
      | none => exact horig
  · exact horig

/-- `normEnd` of a non-empty string is non-empty and ends with a newline. -/
theorem normEnd_spec {f : List Char} (hf : f ≠ []) :
    normEnd f ≠ [] ∧ (normEnd f).getLast? = some '\n' := by
  unfold normEnd
  by_cases h : f.getLast? = some '\n'
  · rw [if_neg (by simp [h])]
    exact ⟨hf, h⟩
  · rw [if_pos ⟨hf, h⟩]
    refine ⟨by simp, ?_⟩
    rw [getLast?_append_ne (List.cons_ne_nil _ _) f]
    rfl

/-- When every attempt in range fails validation, the retry loop exhausts
its fuel and reports one provider call per unit of fuel. -/
theorem runAttempts_all_fail {respOf : Nat → List Char} {blocks : List Block} :
    ∀ (fuel attempt : Nat),
      (∀ a, attempt ≤ a → a < attempt + fuel →
        isValidResponse (pyStrip (respOf a)) blocks = false) →
      runAttempts respOf blocks attempt fuel = (none, attempt + fuel) := by
  intro fuel
  induction fuel with
  | zero => intro attempt _; rfl
  | succ f ih =>
    intro attempt h
    have hc : isValidResponse (pyStrip (respOf attempt)) blocks = false :=
      h attempt le_rfl (by omega)
    rw [runAttempts, if_neg (by rw [hc]; exact Bool.false_ne_true),
      ih (attempt + 1) (fun a h1 h2 => h a (by omega) (by omega)),
      show attempt + 1 + f = attempt + (f + 1) from by omega]

/-- `runChunks` distributes over list append, threading `last_match_end`
and the chunk index. -/
theorem runChunks_append (content : List Char) (resp : Nat → Nat → List Char) (maxR : Nat) :
    ∀ (l1 l2 : List (List RMatch)) (le idx : Nat),
      runChunks content resp maxR le idx (l1 ++ l2) =
        ((runChunks content resp maxR le idx l1).1 ++
            (runChunks content resp maxR (runChunks content resp maxR le idx l1).2.1
              (idx + l1.length) l2).1,
          (runChunks content resp maxR (runChunks content resp maxR le idx l1).2.1
            (idx + l1.length) l2).2.1,
          (runChunks content resp maxR le idx l1).2.2 ++
            (runChunks content resp maxR (runChunks content resp maxR le idx l1).2.1
              (idx + l1.length) l2).2.2) := by
  intro l1
  induction l1 with
  | nil => intro l2 le idx; rfl
  | cons ch chs ih =>
    intro l2 le idx
    rw [show (ch :: chs) ++ l2 = ch :: (chs ++ l2) from rfl, runChunks,
      ih l2 (chunkEnd ch) (idx + 1), runChunks,
      show idx + (ch :: chs).length = idx + 1 + chs.length from by
        rw [List.length_cons]; omega]
    rfl

/-- C2. Retry-then-fallback: for a chunk with translatable text whose
response fails validation on every attempt, the provider is called exactly
`max_retries + 1` times, the chunk's original source text is kept
byte-for-byte, and the whole run still completes normally, processing the
remaining chunks with the next index. The inter-attempt delay
(`time.sleep`) has no effect on the produced document and is not modelled. -/
theorem claim2_retry_then_fallback (content : List Char) (resp : Nat → Nat → List Char)
    (chunkSize maxR : Nat) (m0 : RMatch) (ms : List RMatch)
    (pre post : List (List RMatch)) (ch : List RMatch)
    (hfind : finditer content = m0 :: ms)
    (hch : chunksOf chunkSize (m0 :: ms) = pre ++ ch :: post)
    (htext : hasText content ch = true)
    (hfail : ∀ a ≤ maxR, isValidResponse (pyStrip (resp pre.length a))
      (chunkBlocks content ch) = false) :
    (chunkResult content ch (resp pre.length) maxR).2 = maxR + 1 ∧
    (chunkResult content ch (resp pre.length) maxR).1 =
      sub content (chunkStart ch) (chunkEnd ch) ∧
    translateContent content resp chunkSize maxR =
      normEnd ((if pyStrip (sub content 0 m0.ms) ≠ [] then sub content 0 m0.ms else []) ++
        ((runChunks content resp maxR m0.ms 0 pre).1 ++
          (sub content (runChunks content resp maxR m0.ms 0 pre).2.1 (chunkStart ch) ++
            sub content (chunkStart ch) (chunkEnd ch)) ::
          (runChunks content resp maxR (chunkEnd ch) (pre.length + 1) post).1).join ++
        sub content (runChunks content resp maxR (chunkEnd ch) (pre.length + 1) post).2.1
          content.length) := by
  have hres : chunkResult content ch (resp pre.length) maxR =
      (sub content (chunkStart ch) (chunkEnd ch), maxR + 1) := by
    unfold chunkResult
    rw [if_pos htext,
      runAttempts_all_fail (maxR + 1) 0 (fun a _ h2 => hfail a (by omega)),
      Nat.zero_add]
  refine ⟨by rw [hres], by rw [hres], ?_⟩
  unfold translateContent
  split
  case h_1 h => rw [hfind] at h; cases h
  case h_2 m0' ms' h =>
    rw [hfind] at h
    cases h
    rw [hch, runChunks_append, runChunks, Nat.zero_add, hres]

def contentW2 : List Char := ("1" ++ "\n" ++ "00:00:00,000 --> 00:00:01,000" ++ "\n" ++ "Hi").data

def m0W2 : RMatch := ⟨0, 34, some (0, 2), (2, 32), (32, 34)⟩

def respW2 (idx attempt : Nat) : List Char := [idx.digitChar, attempt.digitChar]

theorem claim2_retry_then_fallback_witness :
    (finditer contentW2 = m0W2 :: [] ∧
      chunksOf 10 (m0W2 :: []) = [] ++ [m0W2] :: [] ∧
      hasText contentW2 [m0W2] = true ∧
      (∀ a ≤ 2, isValidResponse (pyStrip (respW2 ([] : List (List RMatch)).length a))
        (chunkBlocks contentW2 [m0W2]) = false)) ∧
    (chunkResult contentW2 [m0W2] (respW2 ([] : List (List RMatch)).length) 2).2 = 2 + 1 ∧
    (chunkResult contentW2 [m0W2] (respW2 ([] : List (List RMatch)).length) 2).1 =
      sub contentW2 (chunkStart [m0W2]) (chunkEnd [m0W2]) := by
  have h := claim2_retry_then_fallback contentW2 respW2 10 2 m0W2 [] [] [] [m0W2]
    (by decide) (by decide) (by decide) (by decide)
  exact ⟨⟨by decide, by decide, by decide, by decide⟩, h.1, h.2.1⟩

/-- The characters of the document lying outside the chunk spans: the
preamble before the first match, the gap before each chunk, and the
trailing text after the last chunk. -/
def outsideText (content : List Char) (chunkSize : Nat) : List Char :=
  match finditer content with
  | [] => content
  | m0 :: ms =>
    sub content 0 m0.ms ++
      (chunkGaps content m0.ms (chunksOf chunkSize (m0 :: ms))).join ++
      sub content (((chunksOf chunkSize (m0 :: ms)).getLast?.map chunkEnd).getD m0.ms)
        content.length

def contentW5 : List Char :=
  ("\t" ++ "1" ++ "\n" ++ "00:00:00,000 --> 00:00:01,000" ++ "\n" ++ "Hi").data

/-- C5 counterexample: the document starts with a tab-only preamble, which
lies outside every block span; the code drops a preamble that strips to
whitespace, so the tab does not appear in the output at all (let alone in
order). -/
theorem claim5_counterexample :
    ¬ (∀ c ∈ outsideText contentW5 10,
        c ∈ translateContent contentW5 (fun _ _ => []) 10 2) := by
  decide

/-- C5 (amended). Outside preservation: the output is the preamble —
kept only when it strips non-empty, dropped when whitespace-only — then,
for each chunk in order, the verbatim gap text before that chunk followed
by that chunk's fill, then the verbatim trailing text after the last
chunk, with a final newline appended when missing. -/
theorem claim5_outside_preservation (content : List Char) (resp : Nat → Nat → List Char)
    (chunkSize maxR : Nat) (m0 : RMatch) (ms : List RMatch)
    (hfind : finditer content = m0 :: ms) :
    ∃ fills : List (List Char),
      fills.length = (chunksOf chunkSize (m0 :: ms)).length ∧
      translateContent content resp chunkSize maxR =
        normEnd ((if pyStrip (sub content 0 m0.ms) ≠ [] then sub content 0 m0.ms else []) ++
          (List.zipWith (fun g f => g ++ f)
            (chunkGaps content m0.ms (chunksOf chunkSize (m0 :: ms))) fills).join ++
          sub content (((chunksOf chunkSize (m0 :: ms)).getLast?.map chunkEnd).getD m0.ms)
            content.length) := by
  refine ⟨((chunksOf chunkSize (m0 :: ms)).enumFrom 0).map
    (fun p => (chunkResult content p.2 (resp p.1) maxR).1), by simp, ?_⟩
  unfold translateContent
  split
  case h_1 h => rw [hfind] at h; cases h
  case h_2 m0' ms' h =>
    rw [hfind] at h
    cases h
    rw [runChunks_pieces, runChunks_lastEnd, List.zipWith_map_right]

theorem claim5_outside_preservation_witness :
    finditer contentW5 = (⟨1, 35, some (1, 3), (3, 33), (33, 35)⟩ : RMatch) :: [] ∧
    ∃ fills : List (List Char),
      fills.length = (chunksOf 10 ((⟨1, 35, some (1, 3), (3, 33), (33, 35)⟩ : RMatch) :: [])).length ∧
      translateContent contentW5 respW2 10 2 =
        normEnd ((if pyStrip (sub contentW5 0 (1 : Nat)) ≠ [] then sub contentW5 0 (1 : Nat) else []) ++
          (List.zipWith (fun g f => g ++ f)
            (chunkGaps contentW5 1 (chunksOf 10 ((⟨1, 35, some (1, 3), (3, 33), (33, 35)⟩ : RMatch) :: []))) fills).join ++
          sub contentW5
            (((chunksOf 10 ((⟨1, 35, some (1, 3), (3, 33), (33, 35)⟩ : RMatch) :: [])).getLast?.map chunkEnd).getD 1)
            contentW5.length) :=
  ⟨by decide, claim5_outside_preservation contentW5 respW2 10 2
    ⟨1, 35, some (1, 3), (3, 33), (33, 35)⟩ [] (by decide)⟩

/-- C6 counterexample: for the document `"x\n\n"` (no parseable block) the
orchestrator's output is `"x\n\n"` itself, which ends with two consecutive
line terminators — the code only appends a missing final newline, it never
collapses existing ones. -/
theorem claim6_counterexample :
    translateContent ("x\n\n".data) (fun _ _ => []) 10 2 = "x\n\n".data ∧
    ("\n\n".data).isSuffixOf ("x\n\n".data) = true := by
  constructor
  · rfl
  · decide

/-- C6 (amended). Trailing terminator: for every non-empty input document
the output is non-empty and ends with a line terminator (one is appended
exactly when missing); pre-existing repeated terminators at the end are
preserved, so the output can end with more than one. -/
theorem claim6_trailing_newline (content : List Char) (resp : Nat → Nat → List Char)
    (chunkSize maxR : Nat) (hc : content ≠ []) :
    translateContent content resp chunkSize maxR ≠ [] ∧
    (translateContent content resp chunkSize maxR).getLast? = some '\n' := by
  unfold translateContent
  split
  case h_1 => exact normEnd_spec hc
  case h_2 m0 ms hfind =>
    apply normEnd_spec
    intro hnil
    rcases List.append_eq_nil.mp hnil with ⟨h1, -⟩
    rcases List.append_eq_nil.mp h1 with ⟨-, h2⟩
    cases hch : chunksOf chunkSize (m0 :: ms) with
    | nil =>
      have := chunksOf_join chunkSize (m0 :: ms)
      rw [hch] at this
      cases this
    | cons g gs =>
      rw [hch, runChunks] at h2
      rw [show (((sub content m0.ms (chunkStart g) ++
          (chunkResult content g (resp 0) maxR).1) ::
          (runChunks content resp maxR (chunkEnd g) (0 + 1) gs).1).join) =
        (sub content m0.ms (chunkStart g) ++ (chunkResult content g (resp 0) maxR).1) ++
          (runChunks content resp maxR (chunkEnd g) (0 + 1) gs).1.join from rfl] at h2
      rcases List.append_eq_nil.mp h2 with ⟨h3, -⟩
      rcases List.append_eq_nil.mp h3 with ⟨-, h4⟩
      have hgmem : g ∈ chunksOf chunkSize (m0 :: ms) := by
        rw [hch]
        exact List.mem_cons_self _ _
      have hinfix : g <:+: (m0 :: ms) := by
        have hj : (chunksOf chunkSize (m0 :: ms)).flatten = m0 :: ms :=
          chunksOf_join chunkSize (m0 :: ms)
        have := List.infix_of_mem_join hgmem
        rw [hj] at this
        exact this
      have hchain : g.Chain' fun a b => a.me ≤ b.ms := by
        have := finditer_chain content
        rw [hfind] at this
        exact this.infix hinfix
      have hmem : ∀ m ∈ g, m.ms < m.me ∧ m.me ≤ content.length := by
        intro m hm
        have : m ∈ finditer content := by
          rw [hfind]
          exact hinfix.subset hm
        exact finditer_mem_bounds this
      exact chunkResult_ne_nil (chunksOf_ne_nil chunkSize (m0 :: ms) g hgmem)
        hchain hmem h4

theorem claim6_trailing_newline_witness :
    ("x".data ≠ []) ∧
    (translateContent "x".data (fun _ _ => []) 10 2 ≠ [] ∧
      (translateContent "x".data (fun _ _ => []) 10 2).getLast? = some '\n') :=
  ⟨by decide, claim6_trailing_newline "x".data (fun _ _ => []) 10 2 (by decide)⟩

/-! ### `SubtitleProcessor.create_srt_content` and the render/parse round
trip -/

/-- The timestamp line text `f"{start} --> {end}"`. -/
def tsLineStr (u : Cue) : List Char :=
  formatTimestamp u.start ++ ' ' :: '-' :: '-' :: '>' :: ' ' :: formatTimestamp u.endTime

/-- One rendered SRT block `f"{i + 1}\n{start} --> {end}\n{text}\n\n"`
(the text is stripped by the code before interpolation). -/
def renderCue (i : Nat) (u : Cue) : List Char :=
  decimalChars (i + 1) ++ '\n' :: (tsLineStr u ++ '\n' :: (pyStrip u.text ++ ['\n', '\n']))

/-- The SRT document for the cues numbered from `i + 1` on. -/
def createSrtFrom : Nat → List Cue → List Char
  | _, [] => []
  | i, u :: us => renderCue i u ++ createSrtFrom (i + 1) us

/-- `SubtitleProcessor.create_srt_content`. -/
def createSrtContent (cues : List Cue) : List Char := createSrtFrom 0 cues

/-- The block the parser should recover from the rendering of cue `u` at
1-based index `i + 1`. -/
def expectedBlock (i : Nat) (u : Cue) : Block :=
  ⟨some (decimalChars (i + 1) ++ ['\n']), tsLineStr u ++ ['\n'], pyStrip u.text⟩

/-- The blocks the parser should recover from `createSrtFrom i`. -/
def expectedBlocksFrom : Nat → List Cue → List Block
  | _, [] => []
  | i, u :: us => expectedBlock i u :: expectedBlocksFrom (i + 1) us

/-! Generic list helpers for positional reasoning. -/

theorem drop_add {α : Type} (l : List α) (a b : Nat) :
    l.drop (a + b) = (l.drop a).drop b := by
  rw [List.drop_drop, Nat.add_comm]

theorem take_len_add {α : Type} (a : List α) (b : List α) (n : Nat) :
    (a ++ b).take (a.length + n) = a ++ b.take n := by
  induction a with
  | nil => simp
  | cons x xs ih =>
    rw [List.cons_append, List.length_cons,
      show xs.length + 1 + n = (xs.length + n) + 1 from by omega,
      List.take_succ_cons, ih, List.cons_append]

theorem drop_len_add {α : Type} (a : List α) (b : List α) (n : Nat) :
    (a ++ b).drop (a.length + n) = b.drop n := by
  rw [drop_add, List.drop_left]

theorem countWhile_eq_length {p : Char → Bool} :
    ∀ (xs : List Char) (y : Char) (z : List Char), (∀ x ∈ xs, p x = true) →
      p y = false → countWhile p (xs ++ y :: z) = xs.length := by
  intro xs
  induction xs with
  | nil =>
    intro y z _ hy
    rw [List.nil_append, countWhile, if_neg (by rw [hy]; exact Bool.false_ne_true)]
    rfl
  | cons x xs ih =>
    intro y z hall hy
    rw [List.cons_append, countWhile,
      if_pos (hall x (List.mem_cons_self _ _)), ih y z
        (fun u hu => hall u (List.mem_cons_of_mem _ hu)) hy, List.length_cons]

theorem decimalCharsAux_digits :
    ∀ (fuel n : Nat), ∀ c ∈ decimalCharsAux fuel n, c.isDigit = true := by
  intro fuel
  induction fuel with
  | zero => intro n c hc; cases hc
  | succ f ih =>
    intro n c hc
    rw [decimalCharsAux] at hc
    split at hc
    case isTrue h =>
      rcases List.mem_singleton.mp hc with rfl
      exact digitChar_isDigit h
    case isFalse h =>
      rcases List.mem_append.mp hc with hc | hc
      · exact ih _ c hc
      · rcases List.mem_singleton.mp hc with rfl
        exact digitChar_isDigit (Nat.mod_lt _ (by omega))

theorem decimalChars_digits (n : Nat) : ∀ c ∈ decimalChars n, c.isDigit = true :=
  decimalCharsAux_digits (n + 1) n

theorem decimalChars_ne_nil (n : Nat) : decimalChars n ≠ [] := by
  unfold decimalChars
  rw [decimalCharsAux]
  split
  · exact List.cons_ne_nil _ _
  · simp

/-- `findSome?` over a `range'` returns the image of the first success. -/
theorem findSome?_range'_first {α : Type} (f : Nat → Option α) (v : α) :
    ∀ (n s k : Nat), k < n → (∀ i, i < k → f (s + i) = none) →
      f (s + k) = some v → (List.range' s n).findSome? f = some v := by
  intro n
  induction n with
  | zero => intro s k hk; omega
  | succ m ih =>
    intro s k hk hb hv
    rw [List.range', List.findSome?]
    cases k with
    | zero =>
      rw [Nat.add_zero] at hv
      rw [hv]
    | succ j =>
      have h0 : f s = none := by
        have := hb 0 (by omega)
        rwa [Nat.add_zero] at this
      rw [h0]
      refine ih (s + 1) j (by omega) (fun i hi => ?_) ?_
      · have := hb (i + 1) (by omega)
        rwa [show s + (i + 1) = s + 1 + i from by omega] at this
      · rwa [show s + (j + 1) = s + 1 + j from by omega] at hv

/-- `findSome?` over `range bound` returns the image of the first success. -/
theorem findSome?_range_first {α : Type} (f : Nat → Option α) (v : α)
    (bound k : Nat) (hk : k < bound) (hb : ∀ i, i < k → f i = none)
    (hv : f k = some v) : (List.range bound).findSome? f = some v := by
  rw [List.range_eq_range']
  exact findSome?_range'_first f v bound 0 k hk
    (fun i hi => by rw [Nat.zero_add]; exact hb i hi)
    (by rw [Nat.zero_add]; exact hv)

/-- A match attempt fails wherever the next character is not a digit. -/
theorem matchAt_none_of_head {D : List Char} {p : Nat}
    (h : ∀ x, charAt D p = some x → x.isDigit = false) : matchAt D p = none := by
  have h1 : digitRunAt D p = 0 := by
    rw [digitRunAt]
    cases hd : D.drop p with
    | nil => rfl
    | cons x l =>
      rw [countWhile, if_neg]
      rw [h x (by rw [charAt, hd]; rfl)]
      exact Bool.false_ne_true
  have h2 : tsCoreAt D p = false := by
    rw [tsCoreAt]
    cases hd : D.drop p with
    | nil => rfl
    | cons x l =>
      by_contra hc
      rw [Bool.not_eq_false] at hc
      obtain ⟨d, rest, heq, hdd⟩ := isTSCorePrefix_head hc
      have hx : x = d := by
        have := congrArg List.head? heq
        simp at this
        exact this
      have hxd : x.isDigit = true := hx ▸ hdd
      rw [h x (by rw [charAt, hd]; rfl)] at hxd
      cases hxd
  rw [matchAt, matchAtG1, if_pos h1]
  rw [show (none : Option RMatch).orElse (fun _ => matchAtNoG1 D p) =
    matchAtNoG1 D p from rfl]
  rw [matchAtNoG1, matchFromQ]
  by_cases hb : bolAt D p = true
  · rw [if_pos hb, tsLineAt, if_neg (by rw [h2]; exact Bool.false_ne_true)]
    rfl
  · rw [if_neg hb]
    rfl

/-- A match attempt fails at a newline. -/
theorem matchAt_newline {D : List Char} {p : Nat} {rest : List Char}
    (hdrop : D.drop p = '\n' :: rest) : matchAt D p = none := by
  apply matchAt_none_of_head
  intro x hx
  rw [charAt, hdrop] at hx
  cases hx
  rfl

/-- A match attempt fails at the end of input. -/
theorem matchAt_end {D : List Char} {p : Nat}
    (hdrop : D.drop p = []) : matchAt D p = none := by
  apply matchAt_none_of_head
  intro x hx
  rw [charAt, hdrop] at hx
  cases hx

/-- Once the position is past the end, the scan yields nothing. -/
theorem scanAux_past {D : List Char} {p : Nat} (h : p > D.length) :
    ∀ fuel, scanAux D fuel p = [] := by
  intro fuel
  cases fuel with
  | zero => rfl
  | succ f => rw [scanAux, if_pos h]

/-- Two adjacent newlines read inside `T` make `"\n\n"` an infix of `T`. -/
theorem pairNewlines {T : List Char} {k : Nat}
    (h1 : (T.drop k).head? = some '\n') (h2 : (T.drop (k + 1)).head? = some '\n') :
    ['\n', '\n'] <:+: T := by
  cases hd : T.drop k with
  | nil => rw [hd] at h1; cases h1
  | cons x l =>
    rw [hd] at h1
    cases h1
    have hl : T.drop (k + 1) = l := by
      rw [drop_add, hd]
      rfl
    rw [hl] at h2
    cases hm : l with
    | nil => rw [hm] at h2; cases h2
    | cons y m =>
      rw [hm] at h2
      cases h2
      refine ⟨T.take k, m, ?_⟩
      rw [show T.take k ++ ['\n', '\n'] ++ m = T.take k ++ ('\n' :: '\n' :: m) from by
        simp, ← hm, ← hd, List.take_append_drop]

/-! Shape of the rendered timestamps. -/

theorem pyMod_nonneg (x y : ℚ) (hy : 0 < y) : 0 ≤ pyMod x y := by
  have h := Int.floor_le (x / y)
  rw [le_div_iff hy] at h
  have h2 : y * ((⌊x / y⌋ : ℤ) : ℚ) ≤ x := by rw [mul_comm]; exact h
  unfold pyMod
  linarith

theorem pyMod_lt (x y : ℚ) (hy : 0 < y) : pyMod x y < y := by
  have h := Int.lt_floor_add_one (x / y)
  rw [div_lt_iff hy] at h
  have h2 : (((⌊x / y⌋ : ℤ) : ℚ) + 1) * y = y * ((⌊x / y⌋ : ℤ) : ℚ) + y := by ring
  rw [h2] at h
  unfold pyMod
  linarith

theorem fmtHours_lt (q : ℚ) (h1 : q < 360000) : fmtHours q < 100 := by
  have h : ⌊q / 3600⌋ < 100 := by
    apply Int.floor_lt.mpr
    rw [div_lt_iff (by norm_num : (0:ℚ) < 3600)]
    push_cast
    linarith
  unfold fmtHours
  omega

theorem fmtMinutes_lt (q : ℚ) : fmtMinutes q < 100 := by
  have h1 := pyMod_lt q 3600 (by norm_num)
  have h : ⌊pyMod q 3600 / 60⌋ < 60 := by
    apply Int.floor_lt.mpr
    rw [div_lt_iff (by norm_num : (0:ℚ) < 60)]
    push_cast
    linarith
  unfold fmtMinutes
  omega

theorem fmtSecs_lt (q : ℚ) : fmtSecs q < 100 := by
  have h1 := pyMod_lt q 60 (by norm_num)
  have h : ⌊pyMod q 60⌋ < 60 := by
    apply Int.floor_lt.mpr
    push_cast
    linarith
  unfold fmtSecs
  omega

theorem fmtMillis_lt (q : ℚ) : fmtMillis q < 1000 := by
  have h1 := Int.lt_floor_add_one q
  have h : ⌊(q - ((⌊q⌋ : ℤ) : ℚ)) * 1000⌋ < 1000 := by
    apply Int.floor_lt.mpr
    push_cast
    nlinarith
  unfold fmtMillis
  omega

theorem fmt2_shape {n : Nat} (hn : n < 100) :
    ∃ a b, fmt2 n = [a, b] ∧ a.isDigit = true ∧ b.isDigit = true := by
  obtain ⟨a, b, hab⟩ := List.length_eq_two.mp (fmt2_length hn)
  exact ⟨a, b, hab, fmt2_digits hn a (by rw [hab]; simp),
    fmt2_digits hn b (by rw [hab]; simp)⟩

theorem fmt3_shape {n : Nat} (hn : n < 1000) :
    ∃ a b c, fmt3 n = [a, b, c] ∧ a.isDigit = true ∧ b.isDigit = true ∧
      c.isDigit = true := by
  obtain ⟨a, b, c, habc⟩ := List.length_eq_three.mp (fmt3_length hn)
  exact ⟨a, b, c, habc, fmt3_digits hn a (by rw [habc]; simp),
    fmt3_digits hn b (by rw [habc]; simp), fmt3_digits hn c (by rw [habc]; simp)⟩

/-- For a time below 100 hours, the rendered timestamp is twelve characters
`dd:dd:dd,ddd`. -/
theorem formatTimestamp_shape (q : ℚ) (h1 : q < 360000) :
    ∃ a0 a1 a2 a3 a4 a5 a6 a7 a8 : Char,
      formatTimestamp q = [a0, a1, ':', a2, a3, ':', a4, a5, ',', a6, a7, a8] ∧
      a0.isDigit = true ∧ a1.isDigit = true ∧ a2.isDigit = true ∧
      a3.isDigit = true ∧ a4.isDigit = true ∧ a5.isDigit = true ∧
      a6.isDigit = true ∧ a7.isDigit = true ∧ a8.isDigit = true := by
  obtain ⟨a0, a1, hA, ha0, ha1⟩ := fmt2_shape (fmtHours_lt q h1)
  obtain ⟨a2, a3, hB, ha2, ha3⟩ := fmt2_shape (fmtMinutes_lt q)
  obtain ⟨a4, a5, hC, ha4, ha5⟩ := fmt2_shape (fmtSecs_lt q)
  obtain ⟨a6, a7, a8, hD, ha6, ha7, ha8⟩ := fmt3_shape (fmtMillis_lt q)
  refine ⟨a0, a1, a2, a3, a4, a5, a6, a7, a8, ?_,
    ha0, ha1, ha2, ha3, ha4, ha5, ha6, ha7, ha8⟩
  rw [formatTimestamp, hA, hB, hC, hD]
  rfl

theorem drop_append_lt {α : Type} (a b : List α) {n : Nat} (h : n ≤ a.length) :
    (a ++ b).drop n = a.drop n ++ b := by
  rw [List.drop_append_eq_append_drop, Nat.sub_eq_zero_of_le h, List.drop_zero]

theorem head?_append_left {α : Type} (a b : List α) (h : a ≠ []) :
    (a ++ b).head? = a.head? := by
  cases a with
  | nil => exact absurd rfl h
  | cons x l => rfl

/-- The block regex matches at the start of a rendered cue, with group 1
the index line, group 2 the timestamp line, and group 3 exactly the cue
text. -/
theorem matchAt_render {D : List Char} {p : Nat} {dg T rest : List Char}
    {a0 a1 a2 a3 a4 a5 a6 a7 a8 b0 b1 b2 b3 b4 b5 b6 b7 b8 : Char}
    (hdg : ∀ x ∈ dg, x.isDigit = true) (hdgne : dg ≠ [])
    (ha0 : a0.isDigit = true) (ha1 : a1.isDigit = true) (ha2 : a2.isDigit = true)
    (ha3 : a3.isDigit = true) (ha4 : a4.isDigit = true) (ha5 : a5.isDigit = true)
    (ha6 : a6.isDigit = true) (ha7 : a7.isDigit = true) (ha8 : a8.isDigit = true)
    (hb0 : b0.isDigit = true) (hb1 : b1.isDigit = true) (hb2 : b2.isDigit = true)
    (hb3 : b3.isDigit = true) (hb4 : b4.isDigit = true) (hb5 : b5.isDigit = true)
    (hb6 : b6.isDigit = true) (hb7 : b7.isDigit = true) (hb8 : b8.isDigit = true)
    (hTne : T ≠ [])
    (hThead : ∀ x, T.head? = some x → pyIsSpace x = false)
    (hTlast : ∀ x, T.getLast? = some x → pyIsSpace x = false)
    (hTnn : ¬ ['\n', '\n'] <:+: T)
    (hdrop : D.drop p = dg ++ '\n' :: a0 :: a1 :: ':' :: a2 :: a3 :: ':' :: a4 ::
      a5 :: ',' :: a6 :: a7 :: a8 :: ' ' :: '-' :: '-' :: '>' :: ' ' :: b0 :: b1 ::
      ':' :: b2 :: b3 :: ':' :: b4 :: b5 :: ',' :: b6 :: b7 :: b8 :: '\n' ::
      (T ++ '\n' :: '\n' :: rest)) :
    matchAt D p = some ⟨p, p + dg.length + 31 + T.length,
      some (p, p + dg.length + 1),
      (p + dg.length + 1, p + dg.length + 31),
      (p + dg.length + 31, p + dg.length + 31 + T.length)⟩ := by
  have hT1 : 1 ≤ T.length := by
    cases T with
    | nil => exact absurd rfl hTne
    | cons x l => simp
  have hple : p ≤ D.length := by
    by_contra hc
    push_neg at hc
    rw [List.drop_eq_nil_of_le (by omega)] at hdrop
    exact List.cons_ne_nil _ _ (List.append_eq_nil.mp hdrop.symm).2
  have hDlen : D.length = p + dg.length + 33 + T.length + rest.length := by
    have h := congrArg List.length hdrop
    rw [List.length_drop] at h
    simp [List.length_append] at h
    omega
  have hdA : D.drop (p + dg.length) = '\n' :: a0 :: a1 :: ':' :: a2 :: a3 :: ':' ::
      a4 :: a5 :: ',' :: a6 :: a7 :: a8 :: ' ' :: '-' :: '-' :: '>' :: ' ' :: b0 ::
      b1 :: ':' :: b2 :: b3 :: ':' :: b4 :: b5 :: ',' :: b6 :: b7 :: b8 :: '\n' ::
      (T ++ '\n' :: '\n' :: rest) := by
    rw [drop_add, hdrop, List.drop_left]
  have hdA1 : D.drop (p + dg.length + 1) = a0 :: a1 :: ':' :: a2 :: a3 :: ':' ::
      a4 :: a5 :: ',' :: a6 :: a7 :: a8 :: ' ' :: '-' :: '-' :: '>' :: ' ' :: b0 ::
      b1 :: ':' :: b2 :: b3 :: ':' :: b4 :: b5 :: ',' :: b6 :: b7 :: b8 :: '\n' ::
      (T ++ '\n' :: '\n' :: rest) := by
    rw [drop_add D (p + dg.length) 1, hdA]
    rfl
  have hdA13 : D.drop (p + dg.length + 1 + 12) = ' ' :: '-' :: '-' :: '>' :: ' ' ::
      b0 :: b1 :: ':' :: b2 :: b3 :: ':' :: b4 :: b5 :: ',' :: b6 :: b7 :: b8 ::
      '\n' :: (T ++ '\n' :: '\n' :: rest) := by
    rw [drop_add D (p + dg.length + 1) 12, hdA1]
    rfl
  have hdA14 : D.drop (p + dg.length + 1 + 12 + 1) = '-' :: '-' :: '>' :: ' ' ::
      b0 :: b1 :: ':' :: b2 :: b3 :: ':' :: b4 :: b5 :: ',' :: b6 :: b7 :: b8 ::
      '\n' :: (T ++ '\n' :: '\n' :: rest) := by
    rw [drop_add D (p + dg.length + 1 + 12) 1, hdA13]
    rfl
  have hdA17 : D.drop (p + dg.length + 1 + 12 + 1 + 3) = ' ' :: b0 :: b1 :: ':' ::
      b2 :: b3 :: ':' :: b4 :: b5 :: ',' :: b6 :: b7 :: b8 :: '\n' ::
      (T ++ '\n' :: '\n' :: rest) := by
    rw [drop_add D (p + dg.length + 1 + 12 + 1) 3, hdA14]
    rfl
  have hdA18 : D.drop (p + dg.length + 1 + 12 + 1 + 3 + 1) = b0 :: b1 :: ':' ::
      b2 :: b3 :: ':' :: b4 :: b5 :: ',' :: b6 :: b7 :: b8 :: '\n' ::
      (T ++ '\n' :: '\n' :: rest) := by
    rw [drop_add D (p + dg.length + 1 + 12 + 1 + 3) 1, hdA17]
    rfl
  have hdA30 : D.drop (p + dg.length + 30) = '\n' :: (T ++ '\n' :: '\n' :: rest) := by
    rw [show p + dg.length + 30 = p + dg.length + 1 + 12 + 1 + 3 + 1 + 12 from by
      omega, drop_add D (p + dg.length + 1 + 12 + 1 + 3 + 1) 12, hdA18]
    rfl
  have hdA31 : D.drop (p + dg.length + 31) = T ++ '\n' :: '\n' :: rest := by
    rw [show p + dg.length + 31 = p + dg.length + 30 + 1 from by omega,
      drop_add D (p + dg.length + 30) 1, hdA30]
    rfl
  have hdr : digitRunAt D p = dg.length := by
    rw [digitRunAt, hdrop]
    exact countWhile_eq_length dg '\n' _ hdg (by decide)
  have hch0 : charAt D (p + dg.length) = some '\n' := by
    rw [charAt, hdA]
    rfl
  have hsp0 : spaceRunAt D (p + dg.length) = 1 := by
    rw [spaceRunAt, hdA]
    exact countWhile_eq_length ['\n'] a0 _ (by decide)
      (pyIsSpace_eq_false_of_isDigit ha0)
  have hcore1 : tsCoreAt D (p + dg.length + 1) = true := by
    rw [tsCoreAt, hdA1]
    simp [isTSCorePrefix, ha0, ha1, ha2, ha3, ha4, ha5, ha6, ha7, ha8]
  have hsp13 : spaceRunAt D (p + dg.length + 1 + 12) = 1 := by
    rw [spaceRunAt, hdA13]
    exact countWhile_eq_length [' '] '-' _ (by decide) (by decide)
  have harr : isArrowPrefix (D.drop (p + dg.length + 1 + 12 + 1)) = true := by
    rw [hdA14]
    rfl
  have hsp17 : spaceRunAt D (p + dg.length + 1 + 12 + 1 + 3) = 1 := by
    rw [spaceRunAt, hdA17]
    exact countWhile_eq_length [' '] b0 _ (by decide)
      (pyIsSpace_eq_false_of_isDigit hb0)
  have hcore2 : tsCoreAt D (p + dg.length + 1 + 12 + 1 + 3 + 1) = true := by
    rw [tsCoreAt, hdA18]
    simp [isTSCorePrefix, hb0, hb1, hb2, hb3, hb4, hb5, hb6, hb7, hb8]
  have hts : tsLineAt D (p + dg.length + 1) = some (p + dg.length + 30) := by
    rw [tsLineAt, ts2PosAt, arrowPosAt, hsp13, if_pos hcore1, if_pos harr, hsp17,
      if_pos hcore2]
  have hch30 : charAt D (p + dg.length + 30) = some '\n' := by
    rw [charAt, hdA30]
    rfl
  have hsp30 : spaceRunAt D (p + dg.length + 30) = 1 := by
    rw [spaceRunAt, hdA30]
    cases hTc : T with
    | nil => exact absurd hTc hTne
    | cons t0 T2 =>
      have ht0 : pyIsSpace t0 = false := hThead t0 (by rw [hTc]; rfl)
      exact countWhile_eq_length ['\n'] t0 _ (by decide) ht0
  have hg2 : g2EndAt D (p + dg.length + 30) = some (p + dg.length + 31) := by
    rw [g2EndAt, hsp30, show List.range 1 = [0] from by decide, List.reverse_singleton]
    simp only [List.findSome?, Nat.add_zero]
    rw [if_pos ⟨hch30, by omega⟩]
  have hg3 : g3EndAt D (p + dg.length + 31) =
      some (p + dg.length + 31 + T.length) := by
    rw [g3EndAt]
    refine findSome?_range_first _ _ _ (T.length - 1) (by omega) ?_ ?_
    · intro j hj
      rw [if_neg]
      intro hcond
      have hj1 : j + 1 < T.length := by omega
      have hc1 : (T.drop (j + 1)).head? = some '\n' := by
        rcases hcond with hcond | ⟨hc1, _⟩
        · omega
        · rw [charAt, drop_add D (p + dg.length + 31) (j + 1), hdA31,
            drop_append_lt _ _ (by omega),
            head?_append_left _ _ (by
              intro hnil
              have := congrArg List.length hnil
              rw [List.length_drop] at this
              simp at this
              omega)] at hc1
          exact hc1
      rcases hcond with hcond | ⟨_, hc2⟩
      · omega
      · by_cases hcase : j + 2 < T.length
        · have hc2' : (T.drop (j + 2)).head? = some '\n' := by
            rw [show p + dg.length + 31 + (j + 1) + 1 =
              p + dg.length + 31 + (j + 2) from by omega, charAt,
              drop_add D (p + dg.length + 31) (j + 2), hdA31,
              drop_append_lt _ _ (by omega),
              head?_append_left _ _ (by
                intro hnil
                have := congrArg List.length hnil
                rw [List.length_drop] at this
                simp at this
                omega)] at hc2
            exact hc2
          exact hTnn (pairNewlines hc1 (by
            rw [show j + 1 + 1 = j + 2 from by omega]
            exact hc2'))
        · have hj2 : j + 2 = T.length := by omega
          have hdt : T.drop (j + 1) = ['\n'] := by
            cases hdt : T.drop (j + 1) with
            | nil => rw [hdt] at hc1; cases hc1
            | cons x l =>
              rw [hdt] at hc1
              cases hc1
              have := congrArg List.length hdt
              rw [List.length_drop] at this
              simp at this
              rw [List.length_eq_zero.mp (by omega : l.length = 0)]
          have hgl : T.getLast? = some '\n' := by
            rw [← List.take_append_drop (j + 1) T, hdt,
              getLast?_append_ne (by simp) _]
            rfl
          exact absurd (hTlast '\n' hgl) (by decide)
    · rw [show T.length - 1 + 1 = T.length from by omega]
      have hcA : charAt D (p + dg.length + 31 + T.length) = some '\n' := by
        rw [charAt, drop_add D (p + dg.length + 31) T.length, hdA31,
          List.drop_left]
        rfl
      have hcB : charAt D (p + dg.length + 31 + T.length + 1) = some '\n' := by
        rw [show p + dg.length + 31 + T.length + 1 =
          p + dg.length + 31 + (T.length + 1) from by omega, charAt,
          drop_add D (p + dg.length + 31) (T.length + 1), hdA31,
          drop_len_add T _ 1]
        rfl
      rw [if_pos (Or.inr ⟨hcA, hcB⟩)]
  have hbolq : bolAt D (p + dg.length + 1) = true := by
    show (charAt D (p + dg.length) == some '\n') = true
    rw [hch0]
    rfl
  have hmfq : matchFromQ D (p + dg.length + 1) =
      some (p + dg.length + 31, p + dg.length + 31 + T.length) := by
    rw [matchFromQ, if_pos hbolq, hts, Option.some_bind, hg2, Option.some_bind,
      hg3, Option.map_some']
  have hg1 : matchAtG1 D p = some ⟨p, p + dg.length + 31 + T.length,
      some (p, p + dg.length + 1),
      (p + dg.length + 1, p + dg.length + 31),
      (p + dg.length + 31, p + dg.length + 31 + T.length)⟩ := by
    rw [matchAtG1, hdr,
      if_neg (fun h => hdgne (List.length_eq_zero.mp h)), hsp0,
      show List.range 1 = [0] from by decide, List.reverse_singleton]
    simp only [List.findSome?, Nat.add_zero]
    rw [if_pos hch0, hmfq, Option.map_some']
  rw [matchAt, hg1]
  rfl

/-- Scanning a suffix made of rendered cues recovers exactly the expected
blocks. -/
theorem scan_render (D : List Char) :
    ∀ (cs : List Cue) (j p fuel : Nat),
      D.drop p = createSrtFrom j cs →
      p ≤ D.length →
      bolAt D p = true →
      D.length - p + 1 ≤ fuel →
      (∀ u ∈ cs, u.start < 360000 ∧ u.endTime < 360000) →
      (∀ u ∈ cs, pyStrip u.text ≠ [] ∧ ¬ ['\n', '\n'] <:+: pyStrip u.text) →
      (scanAux D fuel p).map (blockOf D) = expectedBlocksFrom j cs := by
  intro cs
  induction cs with
  | nil =>
    intro j p fuel hdrop hple hbol hfuel hb ht
    have hnil : D.drop p = [] := by
      rw [hdrop]
      rfl
    have hlen : D.length ≤ p := by
      have h := congrArg List.length hnil
      rw [List.length_drop] at h
      simp at h
      omega
    cases fuel with
    | zero => rfl
    | succ f =>
      rw [scanAux]
      by_cases hgt : p > D.length
      · rw [if_pos hgt]
        rfl
      · rw [if_neg hgt, matchAt_end hnil,
          scanAux_past (show p + 1 > D.length by omega) f]
        rfl
  | cons c cs ih =>
    intro j p fuel hdrop hple hbol hfuel hb ht
    obtain ⟨a0, a1, a2, a3, a4, a5, a6, a7, a8, hA, ha0, ha1, ha2, ha3, ha4,
      ha5, ha6, ha7, ha8⟩ :=
      formatTimestamp_shape c.start (hb c (List.mem_cons_self _ _)).1
    obtain ⟨b0, b1, b2, b3, b4, b5, b6, b7, b8, hB, hb0, hb1, hb2, hb3, hb4,
      hb5, hb6, hb7, hb8⟩ :=
      formatTimestamp_shape c.endTime (hb c (List.mem_cons_self _ _)).2
    have hstep : createSrtFrom j (c :: cs) =
        renderCue j c ++ createSrtFrom (j + 1) cs := rfl
    have hdrop' : D.drop p = decimalChars (j + 1) ++ '\n' :: a0 :: a1 :: ':' ::
        a2 :: a3 :: ':' :: a4 :: a5 :: ',' :: a6 :: a7 :: a8 :: ' ' :: '-' ::
        '-' :: '>' :: ' ' :: b0 :: b1 :: ':' :: b2 :: b3 :: ':' :: b4 :: b5 ::
        ',' :: b6 :: b7 :: b8 :: '\n' ::
        (pyStrip c.text ++ '\n' :: '\n' :: createSrtFrom (j + 1) cs) := by
      rw [hdrop, hstep, renderCue, tsLineStr, hA, hB]
      simp [List.append_assoc]
    have hTne := (ht c (List.mem_cons_self _ _)).1
    have hTnn := (ht c (List.mem_cons_self _ _)).2
    have hm := matchAt_render (decimalChars_digits (j + 1))
      (decimalChars_ne_nil (j + 1)) ha0 ha1 ha2 ha3 ha4 ha5 ha6 ha7 ha8
      hb0 hb1 hb2 hb3 hb4 hb5 hb6 hb7 hb8 hTne
      (fun x hx => pyStrip_head_not hx) (fun x hx => pyStrip_getLast_not hx)
      hTnn hdrop'
    have hdgpos : 0 < (decimalChars (j + 1)).length :=
      List.length_pos.mpr (decimalChars_ne_nil (j + 1))
    have hDlen : D.length = p + (decimalChars (j + 1)).length + 33 +
        (pyStrip c.text).length + (createSrtFrom (j + 1) cs).length := by
      have h := congrArg List.length hdrop'
      rw [List.length_drop] at h
      simp [List.length_append] at h
      omega
    have hd31 : D.drop (p + (decimalChars (j + 1)).length + 31) =
        pyStrip c.text ++ '\n' :: '\n' :: createSrtFrom (j + 1) cs := by
      rw [show p + (decimalChars (j + 1)).length + 31 =
        p + ((decimalChars (j + 1)).length + 31) from by omega,
        drop_add D p ((decimalChars (j + 1)).length + 31), hdrop',
        drop_len_add (decimalChars (j + 1)) _ 31]
      rfl
    have hdme : D.drop (p + (decimalChars (j + 1)).length + 31 +
        (pyStrip c.text).length) =
        '\n' :: '\n' :: createSrtFrom (j + 1) cs := by
      rw [drop_add D (p + (decimalChars (j + 1)).length + 31)
        (pyStrip c.text).length, hd31, List.drop_left]
    have hdme1 : D.drop (p + (decimalChars (j + 1)).length + 31 +
        (pyStrip c.text).length + 1) =
        '\n' :: createSrtFrom (j + 1) cs := by
      rw [drop_add D (p + (decimalChars (j + 1)).length + 31 +
        (pyStrip c.text).length) 1, hdme]
      rfl
    have hdme2 : D.drop (p + (decimalChars (j + 1)).length + 31 +
        (pyStrip c.text).length + 2) = createSrtFrom (j + 1) cs := by
      rw [drop_add D (p + (decimalChars (j + 1)).length + 31 +
        (pyStrip c.text).length) 2, hdme]
      rfl
    obtain ⟨f, rfl⟩ : ∃ f, fuel = f + 1 + 1 + 1 := ⟨fuel - 3, by omega⟩
    have hscan : scanAux D (f + 1 + 1 + 1) p =
        (⟨p, p + (decimalChars (j + 1)).length + 31 + (pyStrip c.text).length,
          some (p, p + (decimalChars (j + 1)).length + 1),
          (p + (decimalChars (j + 1)).length + 1,
            p + (decimalChars (j + 1)).length + 31),
          (p + (decimalChars (j + 1)).length + 31,
            p + (decimalChars (j + 1)).length + 31 +
              (pyStrip c.text).length)⟩ : RMatch) ::
        scanAux D (f + 1 + 1)
          (max (p + (decimalChars (j + 1)).length + 31 + (pyStrip c.text).length)
            (p + 1)) := by
      rw [scanAux, if_neg (show ¬ p > D.length by omega), hm]
    rw [Nat.max_eq_left (by omega)] at hscan
    have hscan2 : scanAux D (f + 1 + 1)
        (p + (decimalChars (j + 1)).length + 31 + (pyStrip c.text).length) =
        scanAux D (f + 1) (p + (decimalChars (j + 1)).length + 31 +
          (pyStrip c.text).length + 1) := by
      rw [scanAux, if_neg (show ¬ _ > D.length by omega), matchAt_newline hdme]
    have hscan3 : scanAux D (f + 1)
        (p + (decimalChars (j + 1)).length + 31 + (pyStrip c.text).length + 1) =
        scanAux D f (p + (decimalChars (j + 1)).length + 31 +
          (pyStrip c.text).length + 2) := by
      rw [scanAux, if_neg (show ¬ _ > D.length by omega), matchAt_newline hdme1]
    have hd1 : D.drop (p + (decimalChars (j + 1)).length + 1) = a0 :: a1 :: ':' ::
        a2 :: a3 :: ':' :: a4 :: a5 :: ',' :: a6 :: a7 :: a8 :: ' ' :: '-' ::
        '-' :: '>' :: ' ' :: b0 :: b1 :: ':' :: b2 :: b3 :: ':' :: b4 :: b5 ::
        ',' :: b6 :: b7 :: b8 :: '\n' ::
        (pyStrip c.text ++ '\n' :: '\n' :: createSrtFrom (j + 1) cs) := by
      rw [show p + (decimalChars (j + 1)).length + 1 =
        p + ((decimalChars (j + 1)).length + 1) from by omega,
        drop_add D p ((decimalChars (j + 1)).length + 1), hdrop',
        drop_len_add (decimalChars (j + 1)) _ 1]
      rfl
    have hs1 : sub D p (p + (decimalChars (j + 1)).length + 1) =
        decimalChars (j + 1) ++ ['\n'] := by
      rw [sub, show p + (decimalChars (j + 1)).length + 1 - p =
        (decimalChars (j + 1)).length + 1 from by omega, hdrop', take_len_add]
      rfl
    have hs2 : sub D (p + (decimalChars (j + 1)).length + 1)
        (p + (decimalChars (j + 1)).length + 31) = tsLineStr c ++ ['\n'] := by
      rw [sub, show p + (decimalChars (j + 1)).length + 31 -
        (p + (decimalChars (j + 1)).length + 1) = 30 from by omega, hd1,
        tsLineStr, hA, hB]
      rfl
    have hs3 : sub D (p + (decimalChars (j + 1)).length + 31)
        (p + (decimalChars (j + 1)).length + 31 + (pyStrip c.text).length) =
        pyStrip c.text := by
      rw [sub, show p + (decimalChars (j + 1)).length + 31 +
        (pyStrip c.text).length - (p + (decimalChars (j + 1)).length + 31) =
        (pyStrip c.text).length from by omega, hd31, List.take_left]
    have hbol2 : bolAt D (p + (decimalChars (j + 1)).length + 31 +
        (pyStrip c.text).length + 2) = true := by
      show (charAt D (p + (decimalChars (j + 1)).length + 31 +
        (pyStrip c.text).length + 1) == some '\n') = true
      rw [charAt, hdme1]
      rfl
    have hblock : blockOf D
        (⟨p, p + (decimalChars (j + 1)).length + 31 + (pyStrip c.text).length,
          some (p, p + (decimalChars (j + 1)).length + 1),
          (p + (decimalChars (j + 1)).length + 1,
            p + (decimalChars (j + 1)).length + 31),
          (p + (decimalChars (j + 1)).length + 31,
            p + (decimalChars (j + 1)).length + 31 +
              (pyStrip c.text).length)⟩ : RMatch) = expectedBlock j c := by
      rw [blockOf]
      show Block.mk (some (sub D p (p + (decimalChars (j + 1)).length + 1)))
        (sub D (p + (decimalChars (j + 1)).length + 1)
          (p + (decimalChars (j + 1)).length + 31))
        (sub D (p + (decimalChars (j + 1)).length + 31)
          (p + (decimalChars (j + 1)).length + 31 + (pyStrip c.text).length)) = _
      rw [hs1, hs2, hs3, expectedBlock]
    rw [hscan, hscan2, hscan3, List.map_cons, hblock,
      ih (j + 1) (p + (decimalChars (j + 1)).length + 31 +
        (pyStrip c.text).length + 2) f hdme2 (by omega) hbol2 (by omega)
        (fun u hu => hb u (List.mem_cons_of_mem _ hu))
        (fun u hu => ht u (List.mem_cons_of_mem _ hu))]
    rfl

/-- C10 (amended). Render/parse round trip: when every cue's times are
below 100 hours, every cue's trimmed text is non-empty, and no trimmed
text contains a blank line (`"\n\n"`), re-scanning the SRT text produced
by `create_srt_content` yields exactly one block per cue, in order, whose
group 1 is the 1-based index line, group 2 the `start --> end` timestamp
line, and group 3 exactly the trimmed cue text. A cue with empty trimmed
text still yields a parsed block (see the counterexample), so the
emptiness hypothesis is necessary. -/
theorem claim10_round_trip (cues : List Cue)
    (hb : ∀ u ∈ cues, u.start < 360000 ∧ u.endTime < 360000)
    (ht : ∀ u ∈ cues, pyStrip u.text ≠ [] ∧ ¬ ['\n', '\n'] <:+: pyStrip u.text) :
    parseBlocks (createSrtContent cues) = expectedBlocksFrom 0 cues := by
  rw [parseBlocks, finditer]
  exact scan_render (createSrtContent cues) cues 0 0 _ rfl (Nat.zero_le _) rfl
    (by omega) hb ht

theorem fmtTS_zero : formatTimestamp (0 : ℚ) = "00:00:00,000".data := by
  unfold formatTimestamp fmtHours fmtMinutes fmtSecs fmtMillis pyMod
  norm_num
  decide

theorem fmtTS_one : formatTimestamp (1 : ℚ) = "00:00:01,000".data := by
  unfold formatTimestamp fmtHours fmtMinutes fmtSecs fmtMillis pyMod
  norm_num
  decide

/-- C10 counterexample: a cue whose trimmed text is empty does NOT become
invisible to the parser: its rendering still yields one parsed block (the
lazy body group consumes one of the trailing newlines). -/
theorem claim10_counterexample :
    createSrtContent [⟨0, 1, []⟩] =
      ("1" ++ "\n" ++ "00:00:00,000 --> 00:00:01,000" ++ "\n" ++ "\n\n").data ∧
    pyStrip (Cue.text ⟨0, 1, []⟩) = [] ∧
    (parseBlocks (createSrtContent [⟨0, 1, []⟩])).length = 1 := by
  have hsu : tsLineStr ⟨0, 1, []⟩ = "00:00:00,000 --> 00:00:01,000".data := by
    rw [tsLineStr, show Cue.start ⟨0, 1, []⟩ = (0 : ℚ) from rfl,
      show Cue.endTime ⟨0, 1, []⟩ = (1 : ℚ) from rfl, fmtTS_zero, fmtTS_one]
    decide
  have hdoc : createSrtContent [⟨0, 1, []⟩] =
      ("1" ++ "\n" ++ "00:00:00,000 --> 00:00:01,000" ++ "\n" ++ "\n\n").data := by
    rw [createSrtContent, show createSrtFrom 0 [⟨0, 1, []⟩] =
      renderCue 0 ⟨0, 1, []⟩ ++ createSrtFrom 1 [] from rfl, renderCue, hsu]
    decide
  refine ⟨hdoc, rfl, ?_⟩
  rw [hdoc]
  decide

def cueW10 : Cue := ⟨0, 1, "Hi".data⟩

theorem claim10_round_trip_witness :
    ((∀ u ∈ [cueW10], u.start < 360000 ∧ u.endTime < 360000) ∧
      (∀ u ∈ [cueW10], pyStrip u.text ≠ [] ∧
        ¬ ['\n', '\n'] <:+: pyStrip u.text)) ∧
    parseBlocks (createSrtContent [cueW10]) = expectedBlocksFrom 0 [cueW10] := by
  have h1 : ∀ u ∈ [cueW10], u.start < 360000 ∧ u.endTime < 360000 := by
    intro u hu
    rcases List.mem_singleton.mp hu with rfl
    constructor
    · show (0 : ℚ) < 360000
      norm_num
    · show (1 : ℚ) < 360000
      norm_num
  have h2 : ∀ u ∈ [cueW10], pyStrip u.text ≠ [] ∧
      ¬ ['\n', '\n'] <:+: pyStrip u.text := by
    intro u hu
    rcases List.mem_singleton.mp hu with rfl
    refine ⟨by decide, fun h => ?_⟩
    have hm : '\n' ∈ pyStrip cueW10.text :=
      h.subset (by decide : ('\n' : Char) ∈ ['\n', '\n'])
    exact absurd hm (by decide)
  exact ⟨⟨h1, h2⟩, claim10_round_trip [cueW10] h1 h2⟩

end VSG
